import Mathlib

/-!
Verification development for the claims-synchronization pipeline
(`suspect-engine`): identifier crosswalk resolution, batched and concurrent
claim retrieval, document merge, and idempotent bulk persistence.

Documents are modelled as a JSON-like `Value` type; Python/Mongo string keys
are modelled as `List Char` so that splitting on `'.'` (the `undot_keys`
transform) is fully analysable.
-/

set_option autoImplicit false

namespace SuspectEngine

/-- A document key (a Python string, modelled as its character list). -/
abbrev Key := List Char

/-- A document value: the JSON-like data held in the Mongo collections.
`vdate` models a Python `datetime` value (as an abstract triple
year/month/day); every other value is a non-datetime. -/
inductive Value where
  | vnull : Value
  | vstr : Key → Value
  | vint : Int → Value
  | vdate : Nat → Nat → Nat → Value
  | vlist : List Value → Value
  | vdict : List (Key × Value) → Value

namespace Value

mutual

/-- Structural equality test on values (Python `==` on these shapes). -/
def beqV : Value → Value → Bool
  | vnull, vnull => true
  | vstr s, vstr t => s = t
  | vint m, vint n => m = n
  | vdate a b c, vdate a' b' c' => a = a' && b = b' && c = c'
  | vlist xs, vlist ys => beqL xs ys
  | vdict xs, vdict ys => beqD xs ys
  | _, _ => false

/-- Equality test on value lists. -/
def beqL : List Value → List Value → Bool
  | [], [] => true
  | x :: xs, y :: ys => beqV x y && beqL xs ys
  | _, _ => false

/-- Equality test on key-value lists. -/
def beqD : List (Key × Value) → List (Key × Value) → Bool
  | [], [] => true
  | (k, v) :: xs, (k', v') :: ys => k = k' && beqV v v' && beqD xs ys
  | _, _ => false

end

mutual

theorem beqV_iff : ∀ a b : Value, beqV a b = true ↔ a = b
  | vnull, b => by cases b <;> simp [beqV]
  | vstr s, b => by cases b <;> simp [beqV]
  | vint m, b => by cases b <;> simp [beqV]
  | vdate x y z, b => by cases b <;> simp [beqV, and_assoc]
  | vlist xs, b => by
      cases b <;> simp [beqV]
      exact beqL_iff xs _
  | vdict xs, b => by
      cases b <;> simp [beqV]
      exact beqD_iff xs _

theorem beqL_iff : ∀ xs ys : List Value, beqL xs ys = true ↔ xs = ys
  | [], ys => by cases ys <;> simp [beqL]
  | x :: xs, ys => by
      cases ys with
      | nil => simp [beqL]
      | cons y ys => simp [beqL, beqV_iff x y, beqL_iff xs ys]

theorem beqD_iff :
    ∀ xs ys : List (Key × Value), beqD xs ys = true ↔ xs = ys
  | [], ys => by cases ys <;> simp [beqD]
  | (k, v) :: xs, ys => by
      cases ys with
      | nil => simp [beqD]
      | cons p ys =>
          obtain ⟨k', v'⟩ := p
          simp [beqD, beqV_iff v v', beqD_iff xs ys, and_assoc,
            Prod.ext_iff]

end

instance instDecEq : DecidableEq Value := fun a b =>
  decidable_of_iff (beqV a b = true) (beqV_iff a b)

/-- Python truthiness (`bool(v)`): `None`, `0`, empty string/list/dict are
falsy; a `datetime` is always truthy. -/
def truthy : Value → Bool
  | vnull => false
  | vstr s => !s.isEmpty
  | vint n => n != 0
  | vdate _ _ _ => true
  | vlist xs => !xs.isEmpty
  | vdict kvs => !kvs.isEmpty

end Value

open Value

/-- `d.get(k)` on a Python dict (first matching key), `None` when absent. -/
def getK (kvs : List (Key × Value)) (k : Key) : Option Value :=
  match kvs with
  | [] => none
  | (k', v) :: rest => if k' = k then some v else getK rest k

/-- `d.get(k, default)` on a Python dict. -/
def getD (kvs : List (Key × Value)) (k : Key) (dflt : Value) : Value :=
  (getK kvs k).getD dflt

/-- `d[k] = v` on a Python dict: overwrite in place when the key exists
(keeping its position), append otherwise. -/
def setK (kvs : List (Key × Value)) (k : Key) (v : Value) :
    List (Key × Value) :=
  match kvs with
  | [] => [(k, v)]
  | (k', v') :: rest =>
      if k' = k then (k, v) :: rest else (k', v') :: setK rest k v

@[simp] theorem getK_nil (k : Key) : getK [] k = none := rfl

theorem getK_setK_same (kvs : List (Key × Value)) (k : Key) (v : Value) :
    getK (setK kvs k v) k = some v := by
  induction kvs with
  | nil => simp [setK, getK]
  | cons p rest ih =>
      obtain ⟨k', v'⟩ := p
      by_cases h : k' = k
      · simp [setK, getK, h]
      · simp [setK, getK, h, ih]

theorem getK_setK_other (kvs : List (Key × Value)) (k k' : Key) (v : Value)
    (h : k' ≠ k) : getK (setK kvs k v) k' = getK kvs k' := by
  induction kvs with
  | nil => simp [setK, getK, Ne.symm h]
  | cons p rest ih =>
      obtain ⟨k0, v0⟩ := p
      by_cases h0 : k0 = k
      · subst h0
        simp [setK, getK, Ne.symm h]
      · by_cases h1 : k0 = k'
        · subst h1
          simp [setK, getK, h0]
        · simp [setK, getK, h0, h1, ih]

theorem getK_append (l1 l2 : List (Key × Value)) (k : Key) :
    getK (l1 ++ l2) k =
      match getK l1 k with
      | some v => some v
      | none => getK l2 k := by
  induction l1 with
  | nil => simp [getK]
  | cons p rest ih =>
      obtain ⟨k0, v0⟩ := p
      by_cases h : k0 = k <;> simp [getK, h, ih]

theorem setK_eq_append (kvs : List (Key × Value)) (k : Key) (v : Value)
    (h : getK kvs k = none) : setK kvs k v = kvs ++ [(k, v)] := by
  induction kvs with
  | nil => simp [setK]
  | cons p rest ih =>
      obtain ⟨k0, v0⟩ := p
      by_cases h0 : k0 = k
      · simp [getK, h0] at h
      · simp [getK, h0] at h
        simp [setK, h0, ih h]

-- -----------------------------------------------------------
-- undot_keys (update_member_claim.py, lines 56-75)
-- -----------------------------------------------------------

/-- `"." in key` (Python membership test on the key string). -/
def hasDot : Key → Bool
  | [] => false
  | c :: rest => c = '.' || hasDot rest

/-- `key.split(".")` (Python); the result is always nonempty and its parts
contain no `'.'`. -/
def splitDot : Key → List Key
  | [] => [[]]
  | c :: rest =>
      match splitDot rest with
      | [] => [[]]
      | p :: ps => if c = '.' then [] :: p :: ps else (c :: p) :: ps

theorem splitDot_ne_nil (k : Key) : splitDot k ≠ [] := by
  induction k with
  | nil => simp [splitDot]
  | cons c rest ih =>
      simp only [splitDot]
      cases h : splitDot rest with
      | nil => simp
      | cons p ps =>
          by_cases hc : c = '.' <;> simp [hc]

theorem splitDot_no_dot (k : Key) :
    ∀ p ∈ splitDot k, hasDot p = false := by
  induction k with
  | nil =>
      intro p hp
      simp [splitDot] at hp
      simp [hp, hasDot]
  | cons c rest ih =>
      intro p hp
      simp only [splitDot] at hp
      cases h : splitDot rest with
      | nil => exact absurd h (splitDot_ne_nil rest)
      | cons q qs =>
          rw [h] at hp
          have ihq : ∀ x ∈ q :: qs, hasDot x = false := by
            rw [← h]; exact ih
          by_cases hc : c = '.'
          · simp [hc] at hp
            rcases hp with hp | hp | hp
            · simp [hp, hasDot]
            · exact ihq p (by simp [hp])
            · exact ihq p (by simp [hp])
          · simp [hc] at hp
            rcases hp with hp | hp
            · subst hp
              simp [hasDot, hc]
              exact ihq q (by simp)
            · exact ihq p (by simp [hp])

theorem splitDot_of_no_dot (k : Key) (h : hasDot k = false) :
    splitDot k = [k] := by
  induction k with
  | nil => simp [splitDot]
  | cons c rest ih =>
      simp only [hasDot, Bool.or_eq_false_iff] at h
      obtain ⟨hc, hrest⟩ := h
      simp only [splitDot, ih hrest]
      simp [decide_eq_false_iff_not.mp hc]

/-- The `setdefault` walk of `undot_keys`'s dotted-key branch: starting from
the partially built dict `d`, walk the path `parts` creating nested dicts
(`current = current.setdefault(p, \x7b\x7d)`), then assign the final part to
`v`. Walking into an existing non-dict value is Python's
`AttributeError`/`TypeError`, modelled as `none`. -/
def insertPath (d : List (Key × Value)) (parts : List Key) (v : Value) :
    Option (List (Key × Value)) :=
  match parts with
  | [] => none
  | [p] => some (setK d p v)
  | p :: rest =>
      match getK d p with
      | none =>
          match insertPath [] rest v with
          | none => none
          | some sub => some (d ++ [(p, Value.vdict sub)])
      | some (Value.vdict sub) =>
          match insertPath sub rest v with
          | none => none
          | some sub' => some (setK d p (Value.vdict sub'))
      | some _ => none

mutual

/-- `undot_keys(document)` (update_member_claim.py): convert dotted keys to
nested dictionaries, recursively; lists map elementwise, scalars are
returned unchanged.  A raised exception is modelled as `none`. -/
def undotV : Value → Option Value
  | Value.vlist xs =>
      match undotL xs with
      | none => none
      | some ys => some (Value.vlist ys)
  | Value.vdict kvs =>
      match undotD kvs [] with
      | none => none
      | some nd => some (Value.vdict nd)
  | v => some v

/-- `[undot_keys(item) for item in document]`. -/
def undotL : List Value → Option (List Value)
  | [] => some []
  | x :: xs =>
      match undotV x, undotL xs with
      | some y, some ys => some (y :: ys)
      | _, _ => none

/-- The key loop of `undot_keys` over a dict: `nd` is the `new_doc`
accumulator. -/
def undotD :
    List (Key × Value) → List (Key × Value) → Option (List (Key × Value))
  | [], nd => some nd
  | (k, v) :: rest, nd =>
      match undotV v with
      | none => none
      | some uv =>
          if hasDot k then
            match insertPath nd (splitDot k) uv with
            | none => none
            | some nd' => undotD rest nd'
          else undotD rest (setK nd k uv)

end

mutual

/-- Well-formed output shape: no dotted key and no duplicate key at any
nesting level. -/
def wfV : Value → Bool
  | Value.vlist xs => wfL xs
  | Value.vdict kvs => wfD kvs
  | _ => true

/-- Well-formedness of a value list. -/
def wfL : List Value → Bool
  | [] => true
  | x :: xs => wfV x && wfL xs

/-- Well-formedness of a key-value list. -/
def wfD : List (Key × Value) → Bool
  | [] => true
  | (k, v) :: rest =>
      !hasDot k && wfV v && (getK rest k).isNone && wfD rest

end

theorem getK_wfV (kvs : List (Key × Value)) (k : Key) (v : Value)
    (hwf : wfD kvs = true) (h : getK kvs k = some v) : wfV v = true := by
  induction kvs with
  | nil => simp [getK] at h
  | cons p rest ih =>
      obtain ⟨k0, v0⟩ := p
      simp only [wfD, Bool.and_eq_true] at hwf
      by_cases h0 : k0 = k
      · simp [getK, h0] at h
        subst h
        exact hwf.1.1.2
      · simp [getK, h0] at h
        exact ih hwf.2 h

theorem setK_wf (kvs : List (Key × Value)) (k : Key) (v : Value)
    (hwf : wfD kvs = true) (hk : hasDot k = false) (hv : wfV v = true) :
    wfD (setK kvs k v) = true := by
  induction kvs with
  | nil => simp [setK, wfD, getK, hk, hv]
  | cons p rest ih =>
      obtain ⟨k0, v0⟩ := p
      simp only [wfD, Bool.and_eq_true] at hwf
      obtain ⟨⟨⟨hk0, hv0⟩, hnone⟩, hrest⟩ := hwf
      by_cases h0 : k0 = k
      · subst h0
        simp [setK, wfD, hk, hv, hnone, hrest]
      · simp only [setK, h0, if_false]
        simp only [wfD, Bool.and_eq_true]
        refine ⟨⟨⟨hk0, hv0⟩, ?_⟩, ih hrest⟩
        rw [getK_setK_other rest k k0 v h0]
        exact hnone

theorem insertPath_wf (parts : List Key) :
    ∀ (d out : List (Key × Value)) (v : Value), wfD d = true →
      (∀ p ∈ parts, hasDot p = false) → wfV v = true →
      insertPath d parts v = some out → wfD out = true := by
  induction parts with
  | nil => intro d out v _ _ _ h; simp [insertPath] at h
  | cons p rest ih =>
      intro d out v hd hparts hv h
      have hp : hasDot p = false := hparts p (by simp)
      cases rest with
      | nil =>
          simp only [insertPath, Option.some.injEq] at h
          subst h
          exact setK_wf d p v hd hp hv
      | cons q rest' =>
          simp only [insertPath] at h
          cases hg : getK d p with
          | none =>
              rw [hg] at h
              cases hsub : insertPath [] (q :: rest') v with
              | none => rw [hsub] at h; exact absurd h (by simp)
              | some sub =>
                  rw [hsub] at h
                  simp only [Option.some.injEq] at h
                  subst h
                  have hsubwf : wfD sub = true :=
                    ih [] sub v (by simp [wfD])
                      (fun x hx => hparts x (by simp [hx])) hv hsub
                  rw [← setK_eq_append d p (Value.vdict sub) hg]
                  exact setK_wf d p (Value.vdict sub) hd hp
                    (by simpa [wfV] using hsubwf)
          | some w =>
              rw [hg] at h
              cases w with
              | vdict sub =>
                  dsimp only at h
                  cases hsub : insertPath sub (q :: rest') v with
                  | none => rw [hsub] at h; exact absurd h (by simp)
                  | some sub' =>
                      rw [hsub] at h
                      simp only [Option.some.injEq] at h
                      subst h
                      have hsubwf : wfD sub = true := by
                        have := getK_wfV d p (Value.vdict sub) hd hg
                        simpa [wfV] using this
                      have hsub'wf : wfD sub' = true :=
                        ih sub sub' v hsubwf
                          (fun x hx => hparts x (by simp [hx])) hv hsub
                      exact setK_wf d p (Value.vdict sub') hd hp
                        (by simpa [wfV] using hsub'wf)
              | vnull => exact absurd h (by simp)
              | vstr s => exact absurd h (by simp)
              | vint n => exact absurd h (by simp)
              | vdate a b c => exact absurd h (by simp)
              | vlist xs => exact absurd h (by simp)

mutual

theorem undotV_wf : ∀ (v r : Value), undotV v = some r → wfV r = true
  | Value.vnull, r => by intro h; simp [undotV] at h; subst h; rfl
  | Value.vstr s, r => by intro h; simp [undotV] at h; subst h; rfl
  | Value.vint n, r => by intro h; simp [undotV] at h; subst h; rfl
  | Value.vdate a b c, r => by
      intro h; simp [undotV] at h; subst h; rfl
  | Value.vlist xs, r => by
      intro h
      simp only [undotV] at h
      cases hl : undotL xs with
      | none => rw [hl] at h; exact absurd h (by simp)
      | some ys =>
          rw [hl] at h
          simp only [Option.some.injEq] at h
          subst h
          simpa [wfV] using undotL_wf xs ys hl
  | Value.vdict kvs, r => by
      intro h
      simp only [undotV] at h
      cases hd : undotD kvs [] with
      | none => rw [hd] at h; exact absurd h (by simp)
      | some nd =>
          rw [hd] at h
          simp only [Option.some.injEq] at h
          subst h
          simpa [wfV] using undotD_wf kvs [] nd (by rfl) hd

theorem undotL_wf :
    ∀ (xs ys : List Value), undotL xs = some ys → wfL ys = true
  | [], ys => by intro h; simp [undotL] at h; subst h; rfl
  | x :: xs, ys => by
      intro h
      simp only [undotL] at h
      cases hx : undotV x with
      | none => rw [hx] at h; exact absurd h (by simp)
      | some y =>
          cases hxs : undotL xs with
          | none => rw [hx, hxs] at h; exact absurd h (by simp)
          | some ys' =>
              rw [hx, hxs] at h
              simp only [Option.some.injEq] at h
              subst h
              simp only [wfL, Bool.and_eq_true]
              exact ⟨undotV_wf x y hx, undotL_wf xs ys' hxs⟩

theorem undotD_wf :
    ∀ (kvs nd out : List (Key × Value)), wfD nd = true →
      undotD kvs nd = some out → wfD out = true
  | [], nd, out => by
      intro hnd h
      simp only [undotD, Option.some.injEq] at h
      subst h
      exact hnd
  | (k, v) :: rest, nd, out => by
      intro hnd h
      simp only [undotD] at h
      cases hv : undotV v with
      | none => rw [hv] at h; exact absurd h (by simp)
      | some uv =>
          rw [hv] at h
          have huv : wfV uv = true := undotV_wf v uv hv
          by_cases hd : hasDot k
          · simp only [hd, if_true] at h
            cases hins : insertPath nd (splitDot k) uv with
            | none => rw [hins] at h; exact absurd h (by simp)
            | some nd' =>
                rw [hins] at h
                have hnd' : wfD nd' = true :=
                  insertPath_wf (splitDot k) nd nd' uv hnd
                    (splitDot_no_dot k) huv hins
                exact undotD_wf rest nd' out hnd' h
          · simp only [hd, if_false] at h
            have hk : hasDot k = false := by
              simpa using hd
            exact undotD_wf rest (setK nd k uv) out
              (setK_wf nd k uv hnd hk huv) h

end

mutual

theorem undotV_of_wf : ∀ v : Value, wfV v = true → undotV v = some v
  | Value.vnull => by intro h; rfl
  | Value.vstr s => by intro h; rfl
  | Value.vint n => by intro h; rfl
  | Value.vdate a b c => by intro h; rfl
  | Value.vlist xs => by
      intro h
      simp only [wfV] at h
      simp [undotV, undotL_of_wf xs h]
  | Value.vdict kvs => by
      intro h
      simp only [wfV] at h
      have := undotD_of_wf kvs [] h (by intro k hk; rfl)
      simp [undotV, this]

theorem undotL_of_wf : ∀ xs : List Value, wfL xs = true → undotL xs = some xs
  | [] => by intro h; rfl
  | x :: xs => by
      intro h
      simp only [wfL, Bool.and_eq_true] at h
      simp [undotL, undotV_of_wf x h.1, undotL_of_wf xs h.2]

theorem undotD_of_wf :
    ∀ (kvs nd : List (Key × Value)), wfD kvs = true →
      (∀ k : Key, (getK kvs k).isSome → getK nd k = none) →
      undotD kvs nd = some (nd ++ kvs)
  | [], nd => by intro _ _; simp [undotD]
  | (k, v) :: rest, nd => by
      intro hwf hdisj
      simp only [wfD, Bool.and_eq_true] at hwf
      obtain ⟨⟨⟨hk, hv⟩, hnone⟩, hrest⟩ := hwf
      have hknd : getK nd k = none := hdisj k (by simp [getK])
      simp only [undotD, undotV_of_wf v hv]
      rw [Bool.not_eq_true' ] at hk
      simp only [hk, if_false]
      rw [setK_eq_append nd k v hknd]
      have hdisj' : ∀ k' : Key, (getK rest k').isSome →
          getK (nd ++ [(k, v)]) k' = none := by
        intro k' hk'
        have hkk' : k' ≠ k := by
          intro he
          subst he
          rw [Option.isNone_iff_eq_none] at hnone
          rw [hnone] at hk'
          simp at hk'
        rw [getK_append]
        rw [hdisj k' (by simp [getK, Ne.symm hkk', hk'])]
        simp [getK, Ne.symm hkk']
      rw [undotD_of_wf rest (nd ++ [(k, v)]) hrest hdisj']
      simp

end

/-- C10: `undot_keys` is idempotent: for every document whose transformation
succeeds, applying `undot_keys` to its own output returns an equal structure
(the output contains no dotted keys at any nesting level), so the per-member
path's de-dotting of eligibility and medical claims is stable under
repetition. -/
theorem undot_keys_idempotent (v r : Value) (h : undotV v = some r) :
    undotV r = some r :=
  undotV_of_wf r (undotV_wf v r h)

/-- Witness for C10 at the concrete document `{"a.b": 1}`, whose
transformation succeeds with output `{"a": {"b": 1}}`. -/
theorem undot_keys_idempotent_witness :
    undotV (Value.vdict [(['a', '.', 'b'], Value.vint 1)]) =
        some (Value.vdict [(['a'], Value.vdict [(['b'], Value.vint 1)])]) ∧
      undotV (Value.vdict [(['a'], Value.vdict [(['b'], Value.vint 1)])]) =
        some (Value.vdict [(['a'], Value.vdict [(['b'], Value.vint 1)])]) :=
  ⟨by decide,
    undot_keys_idempotent (Value.vdict [(['a', '.', 'b'], Value.vint 1)])
      (Value.vdict [(['a'], Value.vdict [(['b'], Value.vint 1)])])
      (by decide)⟩

-- -----------------------------------------------------------
-- Dates: safe_date (update_member_claim.py 78-84, test.py 39-45)
-- and the unguarded variant of main.py (lines 88-92)
-- -----------------------------------------------------------

/-- Left-pad a digit string with `'0'` to width `w`. -/
def padZeros (w : Nat) (s : List Char) : List Char :=
  List.replicate (w - s.length) '0' ++ s

/-- `datetime.strftime("%Y-%m-%d")` output for year/month/day. -/
def fmtYmd (y m d : Nat) : Key :=
  padZeros 4 (Nat.toDigits 10 y) ++ ['-'] ++ padZeros 2 (Nat.toDigits 10 m)
    ++ ['-'] ++ padZeros 2 (Nat.toDigits 10 d)

/-- `val.strftime("%Y-%m-%d")`: only a datetime value has `strftime`; on any
other value the attribute access raises (`none`). -/
def strftimeYmd : Value → Option Key
  | Value.vdate y m d => some (fmtYmd y m d)
  | _ => none

/-- `safe_date(val)` (update_member_claim.py lines 78-84, identical in
test.py lines 39-45): falsy input gives `None`; the `strftime` call is
wrapped in `try/except`, so an unparsable value also gives `None`. -/
def safe_date (val : Value) : Option Key :=
  if !val.truthy then none
  else
    match strftimeYmd val with
    | some s => some s
    | none => none

/-- The fillDate expression of main.py `load_members_with_claims_from_docs`
(lines 88-92): `pc.get("Fill Date").strftime("%Y-%m-%d") if pc.get("Fill
Date") else None`.  The `strftime` call is guarded only by truthiness and
is not wrapped in `try/except`, so a truthy non-datetime raises
(`Except.error`). -/
def mainFillDate (val : Value) : Except Unit (Option Key) :=
  if val.truthy then
    match strftimeYmd val with
    | some s => Except.ok (some s)
    | none => Except.error ()
  else Except.ok none

-- -----------------------------------------------------------
-- Python str() on the values these collections hold
-- -----------------------------------------------------------

/-- Decimal digits of an integer, as `str` renders it. -/
def intChars (n : Int) : List Char :=
  if n < 0 then '-' :: Nat.toDigits 10 n.natAbs
  else Nat.toDigits 10 n.natAbs

/-- Python `str(v)` for the values appearing as identifiers in these
collections (strings, numbers, `None`, datetimes).  Identifiers are
scalars in every collection, so the rendering of composite values is
abbreviated to a fixed marker. -/
def pyStr : Value → Key
  | Value.vstr s => s
  | Value.vnull => "None".toList
  | Value.vint n => intChars n
  | Value.vdate y m d => fmtYmd y m d ++ " 00:00:00".toList
  | Value.vlist _ => "[...]".toList
  | Value.vdict _ => "\x7b...\x7d".toList

/-- C7: for every pharmacy claim, `safe_date` maps a datetime Fill Date to
its `YYYY-MM-DD` string and a missing or unparsable value to `None`,
without ever raising; but the inline variant in main.py
`load_members_with_claims_from_docs` guards only for truthiness and
raises on a truthy non-datetime Fill Date. -/
theorem safe_date_spec_main_raises :
    (∀ y m d : Nat, safe_date (Value.vdate y m d) = some (fmtYmd y m d)) ∧
      safe_date Value.vnull = none ∧
      (∀ s : Key, safe_date (Value.vstr s) = none) ∧
      mainFillDate (Value.vstr "bad".toList) = Except.error () := by
  refine ⟨fun y m d => rfl, rfl, fun s => ?_, rfl⟩
  cases s <;> rfl

-- -----------------------------------------------------------
-- Documents, collections, queries and projection
-- -----------------------------------------------------------

/-- A Mongo document: an ordered field map. -/
abbrev Doc := List (Key × Value)

def kMemberId : Key := "memberId".toList
def kEligibility : Key := "eligibility".toList
def kMedicalClaims : Key := "medicalClaims".toList
def kPharmacyClaims : Key := "pharmacyClaims".toList
def kUpdatedAt : Key := "updatedAt".toList
def kCreatedAt : Key := "createdAt".toList
def kMember : Key := "Member".toList
def kSubscriberID : Key := "Subscriber_ID".toList
def kSubscriberDOB : Key := "Subscriber_DOB".toList
def kSubscriberGender : Key := "Subscriber_Gender".toList
def kDiagnosis : Key := "Diagnosis".toList
def kDiagCodes : Key := "Diag_Codes".toList
def kServiceLine : Key := "ServiceLine".toList
def kLXServiceNo : Key := "LXServiceNo".toList
def kBilledCPTCode : Key := "BilledCPT_Code".toList
def kBilledCPTDesc : Key := "BilledCPTDesc".toList
def kLineSvcDate : Key := "Line_SvcDate".toList
def kClaim : Key := "Claim".toList
def kClaimID : Key := "ClaimID".toList
def kPOS : Key := "POS".toList
def kTypeOfBill : Key := "Type_of_Bill".toList
def kProvider : Key := "Provider".toList
def kBillProvNPI : Key := "BillProv_NPI".toList
def kBillProvLastName : Key := "BillProv_LastName".toList
def kMemberID : Key := "Member ID".toList
def kNDC : Key := "NDC".toList
def kProductLabelName : Key := "Product Label Name".toList
def kFillDate : Key := "Fill Date".toList
def kDaysSupply : Key := "Days Supply".toList
def kMetricQuantity : Key := "Metric Quantity".toList
def kPrescriberID : Key := "Prescriber ID".toList
def kPrescriberName : Key := "Prescriber Name".toList
def kTotalBilled : Key := "Total Billed".toList
def kNdcOut : Key := "ndc".toList
def kDrugName : Key := "drugName".toList
def kFillDateOut : Key := "fillDate".toList
def kDaysSupplyOut : Key := "daysSupply".toList
def kQuantityDispensed : Key := "quantityDispensed".toList
def kPrescriberNPI : Key := "prescriberNPI".toList
def kPrescriberNameOut : Key := "prescriberName".toList
def kTotalBilledOut : Key := "totalBilled".toList

/-- Navigate a dotted query path through nested documents. -/
def getPath (v : Value) (path : List Key) : Option Value :=
  match path with
  | [] => some v
  | k :: rest =>
      match v with
      | Value.vdict kvs =>
          match getK kvs k with
          | some w => getPath w rest
          | none => none
      | _ => none

/-- Mongo equality filter `\x7bpath: qv\x7d` on a document. -/
def matchEqD (d : Doc) (path : List Key) (qv : Value) : Bool :=
  getPath (Value.vdict d) path = some qv

/-- Mongo membership filter `\x7bpath: \x7b$in: qvs\x7d\x7d`. -/
def matchInD (d : Doc) (path : List Key) (qvs : List Value) : Bool :=
  qvs.any (fun qv => matchEqD d path qv)

/-- The tails of the projection paths that start with key `k`. -/
def relPaths (paths : List (List Key)) (k : Key) : List (List Key) :=
  paths.filterMap (fun p =>
    match p with
    | [] => none
    | k' :: rest => if k' = k then some rest else none)

mutual

/-- Mongo inclusion projection of a document on the given paths: a field is
kept when some path names it; an exactly-named field is kept whole, a
deeper path recurses into subdocuments and arrays of subdocuments. -/
def projectD : Doc → List (List Key) → Doc
  | [], _ => []
  | (k, v) :: rest, paths =>
      let rel := relPaths paths k
      if rel.isEmpty then projectD rest paths
      else if rel.contains [] then (k, v) :: projectD rest paths
      else
        match projectV v rel with
        | some v' => (k, v') :: projectD rest paths
        | none => projectD rest paths

/-- Projection of one field value along the remaining path tails: recurses
into a subdocument or an array of subdocuments; a deeper path over a
scalar drops the field. -/
def projectV : Value → List (List Key) → Option Value
  | Value.vdict sub, rel => some (Value.vdict (projectD sub rel))
  | Value.vlist xs, rel => some (Value.vlist (projectL xs rel))
  | _, _ => none

/-- Projection inside an array: keep the subdocuments, projected. -/
def projectL : List Value → List (List Key) → List Value
  | [], _ => []
  | x :: rest, rel =>
      match x, projectV x rel with
      | Value.vdict _, some v' => v' :: projectL rest rel
      | _, _ => projectL rest rel

end

/-- `collection.find(filter, projection)`: the matching documents, in
collection order, each reduced to the projected fields. -/
def findDocs (coll : List Doc) (flt : Doc → Bool) (paths : List (List Key)) :
    List Doc :=
  (coll.filter flt).map (fun d => projectD d paths)

/-- Field projection of the per-member medical query
(update_member_claim.py lines 99-117). -/
def medProjPaths : List (List Key) :=
  [[kDiagnosis, kDiagCodes], [kServiceLine, kLXServiceNo],
   [kServiceLine, kBilledCPTCode], [kServiceLine, kBilledCPTDesc],
   [kServiceLine, kLineSvcDate], [kClaim, kClaimID], [kClaim, kPOS],
   [kTypeOfBill], [kProvider, kBillProvNPI], [kProvider, kBillProvLastName],
   [kMember, kSubscriberID], [kMember, kSubscriberDOB],
   [kMember, kSubscriberGender]]

/-- Field projection of the batched medical query (test.py lines 73-84). -/
def medProjPathsBatch : List (List Key) :=
  [[kDiagnosis, kDiagCodes], [kServiceLine], [kClaim], [kTypeOfBill],
   [kProvider], [kMember, kSubscriberID]]

/-- Field projection of the pharmacy query (identical in
update_member_claim.py lines 123-137 and test.py lines 101-115). -/
def pharmProjPaths : List (List Key) :=
  [[kMemberID], [kNDC], [kProductLabelName], [kFillDate], [kDaysSupply],
   [kMetricQuantity], [kPrescriberID], [kPrescriberName], [kTotalBilled]]

/-- Crosswalk lookup (`mbi_map.get(member_id)`). -/
def getMap (m : List (Key × Key)) (k : Key) : Option Key :=
  match m with
  | [] => none
  | (k', v) :: rest => if k' = k then some v else getMap rest k

/-- `str(el.get("memberId"))` (update_member_claim.py line 95). -/
def memberIdOf (el : Doc) : Key :=
  pyStr (getD el kMemberId Value.vnull)

/-- `mbi_map.get(member_id, member_id)` (update_member_claim.py line 96):
the id the medical query is issued under — the crosswalk entry when
present, the raw member id otherwise. -/
def medQueryId (el : Doc) (mbiMap : List (Key × Key)) : Key :=
  (getMap mbiMap (memberIdOf el)).getD (memberIdOf el)

/-- Pharmacy claim canonicalization (update_member_claim.py lines 140-153,
identical in test.py lines 117-131). -/
def normalizePharm (mid : Key) (pc : Doc) : Doc :=
  [(kMemberId, Value.vstr mid),
   (kNdcOut,
     if (getD pc kNDC Value.vnull).truthy then
       Value.vstr (pyStr (getD pc kNDC Value.vnull))
     else Value.vnull),
   (kDrugName, getD pc kProductLabelName Value.vnull),
   (kFillDateOut,
     match safe_date (getD pc kFillDate Value.vnull) with
     | some s => Value.vstr s
     | none => Value.vnull),
   (kDaysSupplyOut, getD pc kDaysSupply Value.vnull),
   (kQuantityDispensed, getD pc kMetricQuantity Value.vnull),
   (kPrescriberNPI, getD pc kPrescriberID Value.vnull),
   (kPrescriberNameOut, getD pc kPrescriberName Value.vnull),
   (kTotalBilledOut, getD pc kTotalBilled Value.vnull)]

/-- The normalized pharmacy claims of one member on the per-member path
(update_member_claim.py lines 123-154): equality-filtered query, projected,
then canonicalized. -/
def pharmClaimsFor (pharmColl : List Doc) (mid : Key) : List Doc :=
  (findDocs pharmColl (fun d => matchEqD d [kMemberID] (Value.vstr mid))
    pharmProjPaths).map (normalizePharm mid)

/-- The projected medical documents returned for one query id
(update_member_claim.py lines 99-117). -/
def medDocsFor (medColl : List Doc) (qid : Key) : List Doc :=
  findDocs medColl
    (fun d => matchEqD d [kMember, kSubscriberID] (Value.vstr qid))
    medProjPaths

/-- `fetch_member_claims(el, db, mbi_map)` (update_member_claim.py lines
92-165): medical and pharmacy claims for a single member, merged with the
de-dotted eligibility record into one staging document.  `none` models a
raised exception (a failing `undot_keys`). -/
def fetchMemberClaims (el : Doc) (medColl pharmColl : List Doc)
    (mbiMap : List (Key × Key)) (now : Int) : Option Doc :=
  let mid := memberIdOf el
  match (medDocsFor medColl (medQueryId el mbiMap)).mapM
      (fun c => undotD c []) with
  | none => none
  | some medicalClaims =>
      match undotD el [] with
      | none => none
      | some elU =>
          some [(kMemberId, Value.vstr mid),
                (kEligibility, Value.vdict elU),
                (kMedicalClaims, Value.vlist (medicalClaims.map Value.vdict)),
                (kPharmacyClaims,
                  Value.vlist ((pharmClaimsFor pharmColl mid).map
                    Value.vdict)),
                (kUpdatedAt, Value.vint now),
                (kCreatedAt, Value.vint now)]

-- -----------------------------------------------------------
-- Batched set-fetch strategy (test.py)
-- -----------------------------------------------------------

/-- `[mbi_map.get(mid, mid) for mid in member_ids]` (test.py line 197):
crosswalk translation of the whole batch, with identity fallback. -/
def mbiListOf (memberIds : List Key) (mbiMap : List (Key × Key)) :
    List Key :=
  memberIds.map (fun mid => (getMap mbiMap mid).getD mid)

/-- `el[k]` (Python indexing; `none` models `KeyError`). -/
def pyIndex (el : Doc) (k : Key) : Option Value :=
  getK el k

/-- `v.get(k)`: only a dict has `.get`; `none` models the raised
`AttributeError` on any other receiver. -/
def pyGetV (v : Value) (k : Key) : Option Value :=
  match v with
  | Value.vdict kvs => some (getD kvs k Value.vnull)
  | _ => none

/-- `defaultdict(list)` append under a `Value` key. -/
def groupAppendV (m : List (Value × List Doc)) (k : Value) (d : Doc) :
    List (Value × List Doc) :=
  match m with
  | [] => [(k, [d])]
  | (k', ds) :: rest =>
      if k' = k then (k', ds ++ [d]) :: rest
      else (k', ds) :: groupAppendV rest k d

/-- `defaultdict(list)` append under a string key. -/
def groupAppendK (m : List (Key × List Doc)) (k : Key) (d : Doc) :
    List (Key × List Doc) :=
  match m with
  | [] => [(k, [d])]
  | (k', ds) :: rest =>
      if k' = k then (k', ds ++ [d]) :: rest
      else (k', ds) :: groupAppendK rest k d

/-- `m.get(k, [])` under a `Value` key. -/
def getGroupV (m : List (Value × List Doc)) (k : Value) : List Doc :=
  match m with
  | [] => []
  | (k', ds) :: rest => if k' = k then ds else getGroupV rest k

/-- `m.get(k, [])` under a string key. -/
def getGroupK (m : List (Key × List Doc)) (k : Key) : List Doc :=
  match m with
  | [] => []
  | (k', ds) :: rest => if k' = k then ds else getGroupK rest k

/-- `doc.get("Member", \x7b\x7d).get("Subscriber_ID")` (test.py line 87):
the source-side identifier a medical result is grouped under. -/
def medGroupKey (d : Doc) : Option Value :=
  pyGetV (getD d kMember (Value.vdict [])) kSubscriberID

instance instDecEqGroupList : DecidableEq (List (Value × List Doc)) :=
  instDecidableEqList

/-- The grouping loop of `batch_fetch_medical_claims` (test.py lines
86-89): group each returned document under its `Member.Subscriber_ID` when
that key is truthy, skip it otherwise; a non-subdocument `Member` raises
(`none`). -/
def medGroupFold : List Doc → List (Value × List Doc) →
    Option (List (Value × List Doc))
  | [], m => some m
  | d :: rest, m =>
      match medGroupKey d with
      | none => none
      | some kv =>
          medGroupFold rest (if kv.truthy then groupAppendV m kv d else m)

/-- `batch_fetch_medical_claims(db, mbi_list)` (test.py lines 67-92): one
`$in` query over the whole translated-id set, grouped by the source-side
`Member.Subscriber_ID`.  `none` models the uncaught exception when a
projected document's `Member` field is not a subdocument. -/
def batchFetchMedical (medColl : List Doc) (mbiList : List Key) :
    Option (List (Value × List Doc)) :=
  medGroupFold
    (findDocs medColl
      (fun d => matchInD d [kMember, kSubscriberID] (mbiList.map Value.vstr))
      medProjPathsBatch) []

/-- `batch_fetch_pharmacy_claims(db, member_ids)` (test.py lines 95-134):
one `$in` query over the raw member-id set, each result canonicalized and
grouped under `str(pc.get("Member ID"))`. -/
def batchFetchPharmacy (pharmColl : List Doc) (memberIds : List Key) :
    List (Key × List Doc) :=
  (findDocs pharmColl
      (fun d => matchInD d [kMemberID] (memberIds.map Value.vstr))
      pharmProjPaths).foldl
    (fun m pc =>
      let mid := pyStr (getD pc kMemberID Value.vnull)
      groupAppendK m mid (normalizePharm mid pc)) []

/-- The merged staging documents built by `process_batch` of test.py
(lines 194-219), in batch order: raw member ids, crosswalk-translated ids
with identity fallback, one batched fetch per claim source, then one
document per member.  Eligibility is embedded raw (`# no undot`). -/
def processBatchTestDocs (batch : List Doc) (medColl pharmColl : List Doc)
    (mbiMap : List (Key × Key)) (now : Int) : Option (List Doc) :=
  match batch.mapM (fun el => pyIndex el kMemberId) with
  | none => none
  | some raws =>
      let memberIds := raws.map pyStr
      let mbiList := mbiListOf memberIds mbiMap
      match batchFetchMedical medColl mbiList with
      | none => none
      | some medMap =>
          let pharmMap := batchFetchPharmacy pharmColl memberIds
          some (((memberIds.zip mbiList).zip batch).map (fun p =>
            [(kMemberId, Value.vstr p.1.1),
             (kEligibility, Value.vdict p.2),
             (kMedicalClaims,
               Value.vlist ((getGroupV medMap (Value.vstr p.1.2)).map
                 Value.vdict)),
             (kPharmacyClaims,
               Value.vlist ((getGroupK pharmMap p.1.1).map Value.vdict)),
             (kUpdatedAt, Value.vint now),
             (kCreatedAt, Value.vint now)]))

-- -----------------------------------------------------------
-- Projection and grouping lemmas
-- -----------------------------------------------------------

theorem relPaths_contains_nil (paths : List (List Key)) (k : Key)
    (h : [k] ∈ paths) : [] ∈ relPaths paths k := by
  induction paths with
  | nil => simp at h
  | cons p rest ih =>
      simp only [relPaths, List.filterMap_cons]
      rcases List.mem_cons.mp h with h' | h'
      · rw [← h']
        simp
      · have hmem := ih h'
        cases p with
        | nil => simpa [relPaths] using hmem
        | cons k' rest' =>
            by_cases hk : k' = k
            · simp only [hk, if_true]
              simp only [relPaths] at hmem
              exact List.mem_cons_of_mem _ hmem
            · simp only [hk, if_false]
              simpa [relPaths] using hmem

theorem getK_projectD_none (d : Doc) (paths : List (List Key)) (k : Key)
    (h : getK d k = none) : getK (projectD d paths) k = none := by
  induction d with
  | nil => simp [projectD]
  | cons p rest ih =>
      obtain ⟨k0, v0⟩ := p
      by_cases h0 : k0 = k
      · simp [getK, h0] at h
      · simp only [getK, h0, if_false] at h
        simp only [projectD]
        by_cases he : (relPaths paths k0).isEmpty
        · simp [he, ih h]
        · by_cases hc : [] ∈ relPaths paths k0
          · simp [he, hc, getK, h0, ih h]
          · cases hpv : projectV v0 (relPaths paths k0) <;>
              simp [he, hc, hpv, getK, h0, ih h]

theorem getK_projectD_exact (d : Doc) (paths : List (List Key)) (k : Key)
    (hp : [k] ∈ paths) : getK (projectD d paths) k = getK d k := by
  induction d with
  | nil => simp [projectD]
  | cons p rest ih =>
      obtain ⟨k0, v0⟩ := p
      by_cases h0 : k0 = k
      · subst h0
        have hnil : [] ∈ relPaths paths k0 := relPaths_contains_nil paths k0 hp
        have hne : (relPaths paths k0).isEmpty = false := by
          cases hemp : (relPaths paths k0) with
          | nil => rw [hemp] at hnil; simp at hnil
          | cons a l => simp
        simp [projectD, hne, hnil, getK]
      · simp only [projectD]
        by_cases he : (relPaths paths k0).isEmpty
        · simp [he, getK, h0, ih]
        · by_cases hc : [] ∈ relPaths paths k0
          · simp [he, hc, getK, h0, ih]
          · cases hpv : projectV v0 (relPaths paths k0) <;>
              simp [he, hc, hpv, getK, h0, ih]

theorem getGroupK_groupAppendK (m : List (Key × List Doc)) (k : Key)
    (d : Doc) (k' : Key) :
    getGroupK (groupAppendK m k d) k' =
      if k' = k then getGroupK m k' ++ [d] else getGroupK m k' := by
  induction m with
  | nil =>
      by_cases h : k' = k
      · subst h
        simp [groupAppendK, getGroupK]
      · have h2 : ¬k = k' := fun hh => h hh.symm
        simp [groupAppendK, getGroupK, h, h2]
  | cons p rest ih =>
      obtain ⟨k0, ds⟩ := p
      simp only [groupAppendK]
      by_cases h0 : k0 = k
      · subst h0
        simp only [if_pos rfl]
        by_cases h1 : k' = k0
        · subst h1
          simp [getGroupK]
        · have h2 : ¬k0 = k' := fun hh => h1 hh.symm
          simp [getGroupK, h2, h1]
      · simp only [h0, if_false]
        by_cases h1 : k0 = k'
        · subst h1
          simp [getGroupK, h0]
        · simp only [getGroupK, h1, if_false]
          exact ih

theorem getGroupV_groupAppendV (m : List (Value × List Doc)) (k : Value)
    (d : Doc) (k' : Value) :
    getGroupV (groupAppendV m k d) k' =
      if k' = k then getGroupV m k' ++ [d] else getGroupV m k' := by
  induction m with
  | nil =>
      by_cases h : k' = k
      · subst h
        simp [groupAppendV, getGroupV]
      · have h2 : ¬k = k' := fun hh => h hh.symm
        simp [groupAppendV, getGroupV, h, h2]
  | cons p rest ih =>
      obtain ⟨k0, ds⟩ := p
      simp only [groupAppendV]
      by_cases h0 : k0 = k
      · subst h0
        simp only [if_pos rfl]
        by_cases h1 : k' = k0
        · subst h1
          simp [getGroupV]
        · have h2 : ¬k0 = k' := fun hh => h1 hh.symm
          simp [getGroupV, h2, h1]
      · simp only [h0, if_false]
        by_cases h1 : k0 = k'
        · subst h1
          simp [getGroupV, h0]
        · simp only [getGroupV, h1, if_false]
          exact ih

/-- The key each pharmacy result is grouped under in
`batch_fetch_pharmacy_claims` (test.py line 118). -/
def pharmGroupKey (pc : Doc) : Key :=
  pyStr (getD pc kMemberID Value.vnull)

theorem pharm_fold_group (l : List Doc) (m : List (Key × List Doc))
    (mid : Key) :
    getGroupK
      (l.foldl (fun m pc =>
        groupAppendK m (pyStr (getD pc kMemberID Value.vnull))
          (normalizePharm (pyStr (getD pc kMemberID Value.vnull)) pc)) m)
      mid =
    getGroupK m mid ++
      (l.filter (fun pc => pyStr (getD pc kMemberID Value.vnull) = mid)).map
        (normalizePharm mid) := by
  induction l generalizing m with
  | nil => simp
  | cons pc rest ih =>
      rw [List.foldl_cons, ih, getGroupK_groupAppendK]
      by_cases h : pyStr (getD pc kMemberID Value.vnull) = mid
      · rw [h]
        simp [List.filter_cons, h]
      · have h' : mid ≠ pyStr (getD pc kMemberID Value.vnull) :=
          fun hh => h hh.symm
        simp [List.filter_cons, h, h']

theorem batchFetchPharmacy_group (pharmColl : List Doc)
    (memberIds : List Key) (mid : Key) :
    getGroupK (batchFetchPharmacy pharmColl memberIds) mid =
      ((findDocs pharmColl
          (fun d => matchInD d [kMemberID] (memberIds.map Value.vstr))
          pharmProjPaths).filter
        (fun pc => pyStr (getD pc kMemberID Value.vnull) = mid)).map
        (normalizePharm mid) := by
  unfold batchFetchPharmacy
  have := pharm_fold_group
    (findDocs pharmColl
      (fun d => matchInD d [kMemberID] (memberIds.map Value.vstr))
      pharmProjPaths) [] mid
  simpa [getGroupK] using this

theorem getPath_single (d : Doc) (k : Key) :
    getPath (Value.vdict d) [k] = getK d k := by
  cases h : getK d k <;> simp [getPath, h]

theorem pharm_filter_pointwise (d : Doc) (memberIds : List Key) (mid : Key)
    (h : mid ∈ memberIds) :
    (matchInD d [kMemberID] (memberIds.map Value.vstr) &&
        decide (pyStr (getD (projectD d pharmProjPaths) kMemberID
          Value.vnull) = mid)) =
      matchEqD d [kMemberID] (Value.vstr mid) := by
  have hproj : getK (projectD d pharmProjPaths) kMemberID = getK d kMemberID :=
    getK_projectD_exact d pharmProjPaths kMemberID (by simp [pharmProjPaths])
  cases hg : getK d kMemberID with
  | none =>
      have hin : matchInD d [kMemberID] (memberIds.map Value.vstr) = false := by
        simp [matchInD, matchEqD, getPath_single, hg]
      simp [hin, matchEqD, getPath_single, hg]
  | some v =>
      by_cases hv : v = Value.vstr mid
      · subst hv
        have hin : matchInD d [kMemberID] (memberIds.map Value.vstr) = true := by
          simp only [matchInD, List.any_eq_true]
          exact ⟨Value.vstr mid, List.mem_map_of_mem _ h,
            by simp [matchEqD, getPath_single, hg]⟩
        simp [hin, matchEqD, getPath_single, hg, getD, pyStr, hproj]
      · have heq : matchEqD d [kMemberID] (Value.vstr mid) = false := by
          simp [matchEqD, getPath_single, hg, hv]
        rw [heq]
        cases hin : matchInD d [kMemberID] (memberIds.map Value.vstr) with
        | false => simp
        | true =>
            simp only [Bool.true_and]
            simp only [matchInD, List.any_eq_true] at hin
            obtain ⟨qv, hqv, hm⟩ := hin
            obtain ⟨m', hm', rfl⟩ := List.mem_map.mp hqv
            simp only [matchEqD, getPath_single, hg, Option.some.injEq,
              decide_eq_true_eq] at hm
            subst hm
            simp only [getD, hproj, hg, Option.getD_some, pyStr]
            simp only [decide_eq_false_iff_not]
            intro hmm
            exact hv (by rw [hmm])

/-- C3 (amended): both strategies apply the identical pharmacy-claim
canonicalization, so for every pharmacy source and every member of the
batch, the batched path's grouped pharmacy claims equal the per-member
path's pharmacy claims. -/
theorem pharmacy_strategy_equiv (pharmColl : List Doc)
    (memberIds : List Key) (mid : Key) (h : mid ∈ memberIds) :
    getGroupK (batchFetchPharmacy pharmColl memberIds) mid =
      pharmClaimsFor pharmColl mid := by
  rw [batchFetchPharmacy_group]
  unfold pharmClaimsFor findDocs
  rw [List.filter_map, List.filter_filter]
  refine congrArg (List.map (normalizePharm mid))
    (congrArg (List.map (fun d => projectD d pharmProjPaths)) ?_)
  refine List.filter_congr ?_
  intro d _
  have hp := pharm_filter_pointwise d memberIds mid h
  simp only [Function.comp]
  rw [Bool.and_comm]
  exact hp

/-- C3 counterexample: on identical (even empty) claim sources, the two
strategies do not produce identical merged documents — the per-member path
de-dots the eligibility record `\x7b"memberId": "A", "p.q": 1\x7d` while the
batched path embeds it raw, so the merged documents differ. -/
theorem strategy_equivalence_cex :
    processBatchTestDocs
        [[(kMemberId, Value.vstr "A".toList), (['p', '.', 'q'], Value.vint 1)]]
        [] [] [] 0 ≠
      (fetchMemberClaims
          [(kMemberId, Value.vstr "A".toList), (['p', '.', 'q'], Value.vint 1)]
          [] [] [] 0).map (fun d => [d]) := by
  decide

/-- Witness for the amended C3 theorem at a one-member, one-claim store. -/
theorem pharmacy_strategy_equiv_witness :
    getGroupK
        (batchFetchPharmacy [[(kMemberID, Value.vstr "A".toList)]]
          ["A".toList]) "A".toList =
      pharmClaimsFor [[(kMemberID, Value.vstr "A".toList)]] "A".toList :=
  pharmacy_strategy_equiv [[(kMemberID, Value.vstr "A".toList)]]
    ["A".toList] "A".toList (by decide)

theorem med_fold_group (l : List Doc) (m0 m : List (Value × List Doc))
    (h : medGroupFold l m0 = some m) :
    ∀ kv : Value, getGroupV m kv =
      getGroupV m0 kv ++
        l.filter (fun d => decide (medGroupKey d = some kv) && kv.truthy) := by
  induction l generalizing m0 with
  | nil =>
      intro kv
      simp only [medGroupFold, Option.some.injEq] at h
      subst h
      simp
  | cons d rest ih =>
      intro kv
      simp only [medGroupFold] at h
      cases hk : medGroupKey d with
      | none => rw [hk] at h; simp at h
      | some kv' =>
          rw [hk] at h
          dsimp only at h
          have hrec := ih (if kv'.truthy then groupAppendV m0 kv' d else m0) h kv
          rw [hrec]
          cases ht : kv'.truthy with
          | true =>
              by_cases hkv : kv = kv'
              · subst hkv
                simp only [ht, if_true, getGroupV_groupAppendV, if_pos rfl]
                simp [List.filter_cons, hk, ht, List.append_assoc]
              · simp only [ht, if_true, getGroupV_groupAppendV, hkv, if_false]
                have hne : ¬(medGroupKey d = some kv) := by
                  rw [hk]
                  intro hc
                  exact hkv (Option.some.inj hc).symm
                simp [List.filter_cons, hne]
          | false =>
              simp only [Bool.false_eq_true, if_false]
              by_cases hkv : kv = kv'
              · subst hkv
                simp [List.filter_cons, ht]
              · have hne : ¬(medGroupKey d = some kv) := by
                  rw [hk]
                  intro hc
                  exact hkv (Option.some.inj hc).symm
                simp [List.filter_cons, hne]

theorem batchFetchMedical_group (medColl : List Doc) (mbiList : List Key)
    (m : List (Value × List Doc))
    (h : batchFetchMedical medColl mbiList = some m) (kv : Value) :
    getGroupV m kv =
      (findDocs medColl
          (fun d =>
            matchInD d [kMember, kSubscriberID] (mbiList.map Value.vstr))
          medProjPathsBatch).filter
        (fun d => decide (medGroupKey d = some kv) && kv.truthy) := by
  unfold batchFetchMedical at h
  have hg := med_fold_group _ [] m h kv
  simpa [getGroupV] using hg

/-- C4 (amended): the batched strategy translates each batch member id
through the crosswalk with identity fallback; it issues one
membership-filtered query per claim source, the medical one over the
translated-id set and the pharmacy one over the raw member-id set; and each
query's results are grouped into a mapping keyed by the source-side
identifier (`Member.Subscriber_ID` for medical, `str` of `Member ID` for
pharmacy). -/
theorem batched_fetch_queries (medColl pharmColl : List Doc)
    (memberIds mbiList : List Key) (mbiMap : List (Key × Key))
    (m : List (Value × List Doc)) :
    mbiListOf memberIds mbiMap =
        memberIds.map (fun mid => (getMap mbiMap mid).getD mid) ∧
      (batchFetchMedical medColl mbiList = some m →
        ∀ kv : Value, getGroupV m kv =
          (findDocs medColl
              (fun d =>
                matchInD d [kMember, kSubscriberID] (mbiList.map Value.vstr))
              medProjPathsBatch).filter
            (fun d => decide (medGroupKey d = some kv) && kv.truthy)) ∧
      (∀ mid : Key, getGroupK (batchFetchPharmacy pharmColl memberIds) mid =
        ((findDocs pharmColl
            (fun d => matchInD d [kMemberID] (memberIds.map Value.vstr))
            pharmProjPaths).filter
          (fun pc => pyStr (getD pc kMemberID Value.vnull) = mid)).map
          (normalizePharm mid)) :=
  ⟨rfl, fun h kv => batchFetchMedical_group medColl mbiList m h kv,
    fun mid => batchFetchPharmacy_group pharmColl memberIds mid⟩

/-- Witness for the amended C4 theorem on a one-member store. -/
theorem batched_fetch_queries_witness :
    getGroupV [(Value.vstr "X".toList,
        [[(kMember, Value.vdict [(kSubscriberID, Value.vstr "X".toList)])]])]
      (Value.vstr "X".toList) =
      (findDocs [[(kMember, Value.vdict [(kSubscriberID,
          Value.vstr "X".toList)])]]
          (fun d =>
            matchInD d [kMember, kSubscriberID] (["X".toList].map Value.vstr))
          medProjPathsBatch).filter
        (fun d =>
          decide (medGroupKey d = some (Value.vstr "X".toList)) &&
            (Value.vstr "X".toList).truthy) :=
  (batched_fetch_queries
      [[(kMember, Value.vdict [(kSubscriberID, Value.vstr "X".toList)])]]
      [] ["A".toList] ["X".toList] [("A".toList, "X".toList)]
      [(Value.vstr "X".toList,
        [[(kMember, Value.vdict [(kSubscriberID,
          Value.vstr "X".toList)])]])]).2.1
    (by decide) (Value.vstr "X".toList)

/-- C4 counterexample: with crosswalk `A → X` and a pharmacy claim stored
under the raw id `A`, a membership query over the translated-id set
`[X]` finds nothing, yet the batched pipeline's merged document for `A`
carries that pharmacy claim — the pharmacy query is issued over the raw
member-id set, not the translated-id set as the claim states. -/
theorem batched_pharmacy_raw_ids_cex :
    mbiListOf ["A".toList] [("A".toList, "X".toList)] = ["X".toList] ∧
      findDocs [[(kMemberID, Value.vstr "A".toList)]]
          (fun d => matchInD d [kMemberID] (["X".toList].map Value.vstr))
          pharmProjPaths = [] ∧
      (processBatchTestDocs [[(kMemberId, Value.vstr "A".toList)]] []
          [[(kMemberID, Value.vstr "A".toList)]]
          [("A".toList, "X".toList)] 0).map
        (fun docs => docs.map (fun d => getK d kPharmacyClaims)) =
        some [some (Value.vlist [Value.vdict
          (normalizePharm "A".toList [(kMemberID, Value.vstr "A".toList)])])] := by
  refine ⟨by decide, by decide, by decide⟩

/-- C2: a member present in the crosswalk has its medical claims queried
under the mapped external id, a member absent from it under its own raw
`memberId`; absence is never an error — `fetch_member_claims` can only fail
in `undot_keys`, never in the crosswalk lookup. -/
theorem crosswalk_fallback (el : Doc) (mbiMap : List (Key × Key))
    (medColl pharmColl : List Doc) (now : Int) :
    (∀ x : Key, getMap mbiMap (memberIdOf el) = some x →
        medQueryId el mbiMap = x) ∧
      (getMap mbiMap (memberIdOf el) = none →
        medQueryId el mbiMap = memberIdOf el) ∧
      (fetchMemberClaims el medColl pharmColl mbiMap now = none →
        undotD el [] = none ∨
          (medDocsFor medColl (medQueryId el mbiMap)).mapM
            (fun c => undotD c []) = none) := by
  refine ⟨?_, ?_, ?_⟩
  · intro x hx
    simp [medQueryId, hx]
  · intro hx
    simp [medQueryId, hx]
  · intro h
    cases hm : (medDocsFor medColl (medQueryId el mbiMap)).mapM
        (fun c => undotD c []) with
    | none => exact Or.inr rfl
    | some mc =>
        cases he : undotD el [] with
        | none => exact Or.inl rfl
        | some elU =>
            simp only [fetchMemberClaims] at h
            rw [hm] at h
            dsimp only at h
            rw [he] at h
            dsimp only at h
            exact Option.noConfusion h

/-- Witness for C2: a crosswalked member queried under `X`, an
uncrosswalked one under its own id `A`, and a failing fetch caused by
`undot_keys`, not by crosswalk absence. -/
theorem crosswalk_fallback_witness :
    medQueryId [(kMemberId, Value.vstr "A".toList)]
        [("A".toList, "X".toList)] = "X".toList ∧
      medQueryId [(kMemberId, Value.vstr "A".toList)] [] = "A".toList ∧
      (undotD [(['a'], Value.vint 1), (['a', '.', 'b'], Value.vint 2)] [] =
          none ∨
        (medDocsFor []
            (medQueryId [(['a'], Value.vint 1), (['a', '.', 'b'],
              Value.vint 2)] [])).mapM (fun c => undotD c []) = none) :=
  ⟨(crosswalk_fallback [(kMemberId, Value.vstr "A".toList)]
      [("A".toList, "X".toList)] [] [] 0).1 "X".toList (by decide),
    (crosswalk_fallback [(kMemberId, Value.vstr "A".toList)] [] [] [] 0).2.1
      (by decide),
    (crosswalk_fallback [(['a'], Value.vint 1), (['a', '.', 'b'],
        Value.vint 2)] [] [] [] 0).2.2 (by decide)⟩

theorem getK_eq_none_of_not_mem (d : Doc) (k : Key)
    (h : k ∉ d.map Prod.fst) : getK d k = none := by
  induction d with
  | nil => simp [getK]
  | cons p rest ih =>
      obtain ⟨k0, v0⟩ := p
      simp only [List.map_cons, List.mem_cons, not_or] at h
      have hne : ¬k0 = k := fun hh => h.1 hh.symm
      simp [getK, hne, ih h.2]

theorem getK_projectD_nested (d : Doc) (paths : List (List Key)) (k : Key)
    (hnd : (d.map Prod.fst).Nodup) (v : Value) (h : getK d k = some v) :
    getK (projectD d paths) k =
      if (relPaths paths k).isEmpty then none
      else if [] ∈ relPaths paths k then some v
      else projectV v (relPaths paths k) := by
  induction d with
  | nil => simp [getK] at h
  | cons p rest ih =>
      obtain ⟨k0, v0⟩ := p
      have hnd' : (rest.map Prod.fst).Nodup := (List.nodup_cons.mp hnd).2
      by_cases h0 : k0 = k
      · subst h0
        have hv : v0 = v := by simpa [getK] using h
        subst hv
        have hknotin : k0 ∉ rest.map Prod.fst := (List.nodup_cons.mp hnd).1
        have hrest : getK rest k0 = none :=
          getK_eq_none_of_not_mem rest k0 hknotin
        simp only [projectD]
        by_cases he : (relPaths paths k0).isEmpty
        · simp [he, getK_projectD_none rest paths k0 hrest]
        · by_cases hc : [] ∈ relPaths paths k0
          · simp [he, hc, getK]
          · cases hpv : projectV v0 (relPaths paths k0) with
            | none =>
                simp [he, hc, hpv,
                  getK_projectD_none rest paths k0 hrest]
            | some v' => simp [he, hc, hpv, getK]
      · simp only [getK, h0, if_false] at h
        have ihr := ih hnd' h
        simp only [projectD]
        by_cases he : (relPaths paths k0).isEmpty
        · simp [he, ihr]
        · by_cases hc : [] ∈ relPaths paths k0
          · simp [he, hc, getK, h0, ihr]
          · cases hpv : projectV v0 (relPaths paths k0) <;>
              simp [he, hc, hpv, getK, h0, ihr]

theorem mem_findDocs (coll : List Doc) (flt : Doc → Bool)
    (paths : List (List Key)) (x : Doc) :
    x ∈ findDocs coll flt paths ↔
      ∃ d, d ∈ coll ∧ flt d = true ∧ x = projectD d paths := by
  simp only [findDocs, List.mem_map, List.mem_filter]
  constructor
  · rintro ⟨d, ⟨hd, hf⟩, rfl⟩
    exact ⟨d, hd, hf, rfl⟩
  · rintro ⟨d, hd, hf, rfl⟩
    exact ⟨d, ⟨hd, hf⟩, rfl⟩

theorem medGroupKey_raw (d : Doc) (hnd : (d.map Prod.fst).Nodup) (s : Key)
    (h : medGroupKey (projectD d medProjPathsBatch) = some (Value.vstr s)) :
    getPath (Value.vdict d) [kMember, kSubscriberID] =
      some (Value.vstr s) := by
  have hrel : relPaths medProjPathsBatch kMember = [[kSubscriberID]] := by
    decide
  cases hg : getK d kMember with
  | none =>
      have hpn : getK (projectD d medProjPathsBatch) kMember = none :=
        getK_projectD_none d medProjPathsBatch kMember hg
      simp [medGroupKey, pyGetV, getD, hpn, getK] at h
  | some v =>
      have hp := getK_projectD_nested d medProjPathsBatch kMember hnd v hg
      rw [hrel] at hp
      simp only [List.isEmpty_cons, if_false, List.mem_singleton,
        List.mem_cons, List.not_mem_nil, or_false] at hp
      have hp' : getK (projectD d medProjPathsBatch) kMember =
          (if ([] : List Key) ∈ [[kSubscriberID]] then some v
           else projectV v [[kSubscriberID]]) := by
        simpa using hp
      have hnotmem : ([] : List Key) ∉ [[kSubscriberID]] := by decide
      rw [if_neg hnotmem] at hp'
      cases v with
      | vdict sub =>
          simp only [projectV] at hp'
          simp only [medGroupKey, getD, hp', Option.getD_some, pyGetV,
            Option.some.injEq] at h
          have hsub : getK (projectD sub [[kSubscriberID]]) kSubscriberID =
              getK sub kSubscriberID :=
            getK_projectD_exact sub [[kSubscriberID]] kSubscriberID
              (by simp)
          rw [hsub] at h
          simp only [getPath, hg]
          cases hgs : getK sub kSubscriberID with
          | none => rw [hgs] at h; simp [getD] at h
          | some w =>
              rw [hgs] at h
              simp only [getD, Option.getD_some] at h
              rw [h]
      | vlist xs =>
          simp only [projectV] at hp'
          simp [medGroupKey, getD, hp', pyGetV] at h
      | vnull =>
          simp only [projectV] at hp'
          simp [medGroupKey, getD, getK_projectD_none, pyGetV, hp',
            getK] at h
      | vstr t =>
          simp only [projectV] at hp'
          simp [medGroupKey, getD, pyGetV, hp', getK] at h
      | vint n =>
          simp only [projectV] at hp'
          simp [medGroupKey, getD, pyGetV, hp', getK] at h
      | vdate a b c =>
          simp only [projectV] at hp'
          simp [medGroupKey, getD, pyGetV, hp', getK] at h

theorem pharmClaimsFor_empty (pharmColl : List Doc) (mid : Key)
    (h : ∀ d ∈ pharmColl, matchEqD d [kMemberID] (Value.vstr mid) = false) :
    pharmClaimsFor pharmColl mid = [] := by
  unfold pharmClaimsFor findDocs
  have hf : pharmColl.filter
      (fun d => matchEqD d [kMemberID] (Value.vstr mid)) = [] :=
    List.filter_eq_nil_iff.mpr (fun d hd => by simp [h d hd])
  rw [hf]
  rfl

theorem medDocsFor_empty (medColl : List Doc) (qid : Key)
    (h : ∀ d ∈ medColl,
      matchEqD d [kMember, kSubscriberID] (Value.vstr qid) = false) :
    medDocsFor medColl qid = [] := by
  unfold medDocsFor findDocs
  have hf : medColl.filter
      (fun d => matchEqD d [kMember, kSubscriberID] (Value.vstr qid)) = [] :=
    List.filter_eq_nil_iff.mpr (fun d hd => by simp [h d hd])
  rw [hf]
  rfl

theorem med_group_empty (medColl : List Doc) (mbiList : List Key)
    (m : List (Value × List Doc))
    (hm : batchFetchMedical medColl mbiList = some m) (s : Key)
    (hnd : ∀ d ∈ medColl, (d.map Prod.fst).Nodup)
    (hno : ∀ d ∈ medColl,
      matchEqD d [kMember, kSubscriberID] (Value.vstr s) = false) :
    getGroupV m (Value.vstr s) = [] := by
  rw [batchFetchMedical_group medColl mbiList m hm (Value.vstr s)]
  apply List.filter_eq_nil_iff.mpr
  intro x hx hc
  obtain ⟨d, hd, hflt, rfl⟩ := (mem_findDocs _ _ _ x).mp hx
  simp only [Bool.and_eq_true, decide_eq_true_eq] at hc
  have hraw := medGroupKey_raw d (hnd d hd) s hc.1
  have heq : matchEqD d [kMember, kSubscriberID] (Value.vstr s) = true := by
    simp [matchEqD, hraw]
  rw [hno d hd] at heq
  exact Bool.noConfusion heq

/-- C6: on both fetch paths, the merged document's `medicalClaims` and
`pharmacyClaims` fields are always present and are lists, and when no
source document matches the member's query id the field is the empty list
— never null or absent. -/
theorem claim_arrays_present :
    (∀ (el : Doc) (medColl pharmColl : List Doc)
        (mbiMap : List (Key × Key)) (now : Int) (doc : Doc),
      fetchMemberClaims el medColl pharmColl mbiMap now = some doc →
        (∃ l, getK doc kMedicalClaims = some (Value.vlist l)) ∧
          (∃ l, getK doc kPharmacyClaims = some (Value.vlist l)) ∧
          ((∀ d ∈ medColl, matchEqD d [kMember, kSubscriberID]
              (Value.vstr (medQueryId el mbiMap)) = false) →
            getK doc kMedicalClaims = some (Value.vlist [])) ∧
          ((∀ d ∈ pharmColl, matchEqD d [kMemberID]
              (Value.vstr (memberIdOf el)) = false) →
            getK doc kPharmacyClaims = some (Value.vlist []))) ∧
    (∀ (batch medColl pharmColl : List Doc) (mbiMap : List (Key × Key))
        (now : Int) (docs : List Doc),
      processBatchTestDocs batch medColl pharmColl mbiMap now = some docs →
        ∀ doc ∈ docs, ∃ (mid mbi : Key),
          getK doc kMemberId = some (Value.vstr mid) ∧
            (∃ l, getK doc kMedicalClaims = some (Value.vlist l)) ∧
            (∃ l, getK doc kPharmacyClaims = some (Value.vlist l)) ∧
            ((∀ d ∈ pharmColl, matchEqD d [kMemberID]
                (Value.vstr mid) = false) →
              getK doc kPharmacyClaims = some (Value.vlist [])) ∧
            ((∀ d ∈ medColl, (d.map Prod.fst).Nodup) →
              (∀ d ∈ medColl, matchEqD d [kMember, kSubscriberID]
                (Value.vstr mbi) = false) →
              getK doc kMedicalClaims = some (Value.vlist []))) := by
  constructor
  · intro el medColl pharmColl mbiMap now doc h
    cases hm : (medDocsFor medColl (medQueryId el mbiMap)).mapM
        (fun c => undotD c []) with
    | none =>
        simp only [fetchMemberClaims] at h
        rw [hm] at h
        exact absurd h (by simp)
    | some mc =>
        cases he : undotD el [] with
        | none =>
            simp only [fetchMemberClaims] at h
            rw [hm] at h
            dsimp only at h
            rw [he] at h
            exact absurd h (by simp)
        | some elU =>
            simp only [fetchMemberClaims] at h
            rw [hm] at h
            dsimp only at h
            rw [he] at h
            dsimp only at h
            injection h with h
            subst h
            refine ⟨⟨mc.map Value.vdict, rfl⟩,
              ⟨(pharmClaimsFor pharmColl (memberIdOf el)).map Value.vdict,
                rfl⟩, ?_, ?_⟩
            · intro hno
              rw [medDocsFor_empty medColl (medQueryId el mbiMap) hno] at hm
              simp only [List.mapM_nil, pure, Option.some.injEq] at hm
              subst hm
              rfl
            · intro hno
              have hp := pharmClaimsFor_empty pharmColl (memberIdOf el) hno
              calc getK [(kMemberId, Value.vstr (memberIdOf el)),
                    (kEligibility, Value.vdict elU),
                    (kMedicalClaims, Value.vlist (mc.map Value.vdict)),
                    (kPharmacyClaims, Value.vlist
                      ((pharmClaimsFor pharmColl (memberIdOf el)).map
                        Value.vdict)),
                    (kUpdatedAt, Value.vint now),
                    (kCreatedAt, Value.vint now)] kPharmacyClaims
                  = some (Value.vlist
                      ((pharmClaimsFor pharmColl (memberIdOf el)).map
                        Value.vdict)) := rfl
                _ = some (Value.vlist []) := by rw [hp]; rfl
  · intro batch medColl pharmColl mbiMap now docs h doc hdoc
    cases hr : batch.mapM (fun el => pyIndex el kMemberId) with
    | none =>
        simp only [processBatchTestDocs] at h
        rw [hr] at h
        exact absurd h (by simp)
    | some raws =>
        cases hbm : batchFetchMedical medColl
            (mbiListOf (raws.map pyStr) mbiMap) with
        | none =>
            simp only [processBatchTestDocs] at h
            rw [hr] at h
            dsimp only at h
            rw [hbm] at h
            exact absurd h (by simp)
        | some medMap =>
            simp only [processBatchTestDocs] at h
            rw [hr] at h
            dsimp only at h
            rw [hbm] at h
            dsimp only at h
            injection h with h
            subst h
            obtain ⟨p, hp, rfl⟩ := List.mem_map.mp hdoc
            obtain ⟨⟨mid, mbi⟩, el⟩ := p
            have h1 : (mid, mbi) ∈
                (raws.map pyStr).zip (mbiListOf (raws.map pyStr) mbiMap) :=
              (List.of_mem_zip hp).1
            have hmid : mid ∈ raws.map pyStr := (List.of_mem_zip h1).1
            refine ⟨mid, mbi, rfl, ⟨_, rfl⟩, ⟨_, rfl⟩, ?_, ?_⟩
            · intro hno
              have hg : getGroupK
                  (batchFetchPharmacy pharmColl (raws.map pyStr)) mid = [] := by
                rw [pharmacy_strategy_equiv pharmColl (raws.map pyStr) mid
                  hmid]
                exact pharmClaimsFor_empty pharmColl mid hno
              calc getK [(kMemberId, Value.vstr mid),
                    (kEligibility, Value.vdict el),
                    (kMedicalClaims, Value.vlist
                      ((getGroupV medMap (Value.vstr mbi)).map Value.vdict)),
                    (kPharmacyClaims, Value.vlist
                      ((getGroupK (batchFetchPharmacy pharmColl
                        (raws.map pyStr)) mid).map Value.vdict)),
                    (kUpdatedAt, Value.vint now),
                    (kCreatedAt, Value.vint now)] kPharmacyClaims
                  = some (Value.vlist
                      ((getGroupK (batchFetchPharmacy pharmColl
                        (raws.map pyStr)) mid).map Value.vdict)) := rfl
                _ = some (Value.vlist []) := by rw [hg]; rfl
            · intro hnd hno
              have hg : getGroupV medMap (Value.vstr mbi) = [] :=
                med_group_empty medColl (mbiListOf (raws.map pyStr) mbiMap)
                  medMap hbm mbi hnd hno
              calc getK [(kMemberId, Value.vstr mid),
                    (kEligibility, Value.vdict el),
                    (kMedicalClaims, Value.vlist
                      ((getGroupV medMap (Value.vstr mbi)).map Value.vdict)),
                    (kPharmacyClaims, Value.vlist
                      ((getGroupK (batchFetchPharmacy pharmColl
                        (raws.map pyStr)) mid).map Value.vdict)),
                    (kUpdatedAt, Value.vint now),
                    (kCreatedAt, Value.vint now)] kMedicalClaims
                  = some (Value.vlist
                      ((getGroupV medMap (Value.vstr mbi)).map Value.vdict)) :=
                    rfl
                _ = some (Value.vlist []) := by rw [hg]; rfl

/-- Witness for C6 on a one-member batch with empty claim sources: both
claim arrays are present, lists, and empty. -/
theorem claim_arrays_present_witness :
    getK [(kMemberId, Value.vstr "A".toList),
        (kEligibility, Value.vdict [(kMemberId, Value.vstr "A".toList)]),
        (kMedicalClaims, Value.vlist []),
        (kPharmacyClaims, Value.vlist []),
        (kUpdatedAt, Value.vint 0), (kCreatedAt, Value.vint 0)]
      kMedicalClaims = some (Value.vlist []) ∧
    getK [(kMemberId, Value.vstr "A".toList),
        (kEligibility, Value.vdict [(kMemberId, Value.vstr "A".toList)]),
        (kMedicalClaims, Value.vlist []),
        (kPharmacyClaims, Value.vlist []),
        (kUpdatedAt, Value.vint 0), (kCreatedAt, Value.vint 0)]
      kPharmacyClaims = some (Value.vlist []) :=
  ⟨(claim_arrays_present.1 [(kMemberId, Value.vstr "A".toList)] [] [] [] 0
      [(kMemberId, Value.vstr "A".toList),
        (kEligibility, Value.vdict [(kMemberId, Value.vstr "A".toList)]),
        (kMedicalClaims, Value.vlist []),
        (kPharmacyClaims, Value.vlist []),
        (kUpdatedAt, Value.vint 0), (kCreatedAt, Value.vint 0)]
      (by decide)).2.2.1 (by simp),
    (claim_arrays_present.1 [(kMemberId, Value.vstr "A".toList)] [] [] [] 0
      [(kMemberId, Value.vstr "A".toList),
        (kEligibility, Value.vdict [(kMemberId, Value.vstr "A".toList)]),
        (kMedicalClaims, Value.vlist []),
        (kPharmacyClaims, Value.vlist []),
        (kUpdatedAt, Value.vint 0), (kCreatedAt, Value.vint 0)]
      (by decide)).2.2.2 (by simp)⟩

-- -----------------------------------------------------------
-- Upsert operations, batch flushing and the staging store
-- -----------------------------------------------------------

/-- One `UpdateOne(\x7b"memberId": ...\x7d, \x7b"$set": ..., "$setOnInsert":
...\x7d, upsert=True)` as built by `process_batch`
(update_member_claim.py lines 185-199, test.py lines 221-234). -/
structure UpdateOp where
  filterVal : Value
  setFields : Doc
  setOnInsert : Doc
  deriving DecidableEq

/-- The upsert operation for one merged document (update_member_claim.py
lines 185-199): `$set` carries eligibility, both claim arrays and
`updatedAt`; `$setOnInsert` carries `createdAt` and `memberId`.  The
merged documents always hold all six fields, so `doc[...]` indexing is
modelled with a total lookup. -/
def mkOp (doc : Doc) : UpdateOp where
  filterVal := getD doc kMemberId Value.vnull
  setFields :=
    [(kEligibility, getD doc kEligibility Value.vnull),
     (kMedicalClaims, getD doc kMedicalClaims Value.vnull),
     (kPharmacyClaims, getD doc kPharmacyClaims Value.vnull),
     (kUpdatedAt, getD doc kUpdatedAt Value.vnull)]
  setOnInsert :=
    [(kCreatedAt, getD doc kCreatedAt Value.vnull),
     (kMemberId, getD doc kMemberId Value.vnull)]

/-- The result-consumption loop of `process_batch`
(update_member_claim.py lines 173-209): each completed fetch either
yields a merged document, whose upsert operation is appended — flushing
whenever the accumulated operations reach the threshold `t` (50 in the
source) — or raised, which is logged and skipped; a final partial flush
drains the remainder.  `as_completed` yields futures in completion order,
some permutation of the submission order; the model takes the completed
results as a list, so theorems quantified over that list cover every
completion order.  Returns the flush groups in order and the number of
logged per-member errors. -/
def processBatchGo (t : Nat) :
    List (Option UpdateOp) → List UpdateOp → List (List UpdateOp) × Nat
  | [], ops => (if ops.isEmpty then [] else [ops], 0)
  | none :: rest, ops =>
      let r := processBatchGo t rest ops
      (r.1, r.2 + 1)
  | some op :: rest, ops =>
      let grown := ops ++ [op]
      if t ≤ grown.length then
        let r := processBatchGo t rest []
        (grown :: r.1, r.2)
      else processBatchGo t rest grown

/-- The flush threshold hard-coded at update_member_claim.py line 201. -/
def flushThreshold : Nat := 50

/-- `process_batch(batch, db, suspects_coll, mbi_map, max_workers)`: the
flush groups and logged error count for one batch. -/
def processBatch (batch : List Doc) (medColl pharmColl : List Doc)
    (mbiMap : List (Key × Key)) (now : Int) :
    List (List UpdateOp) × Nat :=
  processBatchGo flushThreshold
    (batch.map (fun el =>
      (fetchMemberClaims el medColl pharmColl mbiMap now).map mkOp)) []

/-- The staging collection: a list of stored documents. -/
abbrev Store := List Doc

/-- `fields.foldl` of Mongo `$set`: assign each field in order. -/
def applySet (d : Doc) (fields : Doc) : Doc :=
  fields.foldl (fun acc kv => setK acc kv.1 kv.2) d

/-- Replace the first document satisfying `p`. -/
def replaceFirst (s : Store) (p : Doc → Bool) (f : Doc → Doc) : Store :=
  match s with
  | [] => []
  | d :: rest => if p d then f d :: rest else d :: replaceFirst rest p f

/-- Modelled from the spec (§3 invariants, §4.5, glossary "Bulk upsert"):
the staging store's upsert semantics for one operation, which the source
delegates to MongoDB — when a document matches the `memberId` filter, the
first match receives the `$set` fields; otherwise a new document is
inserted, built from the filter equality, the `$set` fields and the
`$setOnInsert` fields. -/
def applyUpdateOne (store : Store) (op : UpdateOp) : Store :=
  if store.any (fun d => getK d kMemberId = some op.filterVal) then
    replaceFirst store (fun d => getK d kMemberId = some op.filterVal)
      (fun d => applySet d op.setFields)
  else
    store ++ [applySet (applySet [(kMemberId, op.filterVal)] op.setFields)
      op.setOnInsert]

/-- The staging document stored for a member id. -/
def lookupStore (s : Store) (v : Value) : Option Doc :=
  s.find? (fun d => getK d kMemberId = some v)

/-- An operation inside one bulk flush: either a well-formed upsert or an
operation the store rejects, carrying its error detail. -/
inductive BulkOp where
  | valid : UpdateOp → BulkOp
  | invalid : Key → BulkOp
  deriving DecidableEq

/-- Modelled from the spec (§4.5, §6, glossary "Bulk upsert"): unordered
execution of one bulk write — every valid operation is applied in order,
every rejected operation is reported with its detail, and one malformed
operation does not block the others. -/
def bulkWriteUnordered : Store → List BulkOp → Store × List Key
  | store, [] => (store, [])
  | store, BulkOp.valid u :: rest =>
      bulkWriteUnordered (applyUpdateOne store u) rest
  | store, BulkOp.invalid detail :: rest =>
      let r := bulkWriteUnordered store rest
      (r.1, detail :: r.2)

/-- `execute_bulk(collection, ops)` (update_member_claim.py lines 212-223,
identical in test.py lines 140-151): one unordered `bulk_write`; a
`BulkWriteError` is caught and logged with its per-operation details, so
the run continues and the partial result stands.  Returns the store after
the flush and the error-log entries. -/
def executeBulk (store : Store) (ops : List BulkOp) :
    Store × List (List Key) :=
  let r := bulkWriteUnordered store ops
  (r.1, if r.2.isEmpty then [] else [r.2])

/-- The well-formed operations of a flush group. -/
def validOps (ops : List BulkOp) : List UpdateOp :=
  ops.filterMap (fun op =>
    match op with
    | BulkOp.valid u => some u
    | BulkOp.invalid _ => none)

/-- The error details of a flush group's rejected operations. -/
def invalidDetails (ops : List BulkOp) : List Key :=
  ops.filterMap (fun op =>
    match op with
    | BulkOp.valid _ => none
    | BulkOp.invalid detail => some detail)

theorem processBatchGo_small (t : Nat) (l acc : List UpdateOp)
    (hpos : 0 < acc.length + l.length) (hle : acc.length + l.length ≤ t) :
    processBatchGo t (l.map some) acc = ([acc ++ l], 0) := by
  induction l generalizing acc with
  | nil =>
      have hne : acc ≠ [] := by
        intro hc
        subst hc
        simp at hpos
      simp [processBatchGo, List.isEmpty_iff, hne]
  | cons op rest ih =>
      simp only [List.map_cons, processBatchGo]
      by_cases hflush : t ≤ (acc ++ [op]).length
      · have hflush' : t ≤ acc.length + 1 := by
          simpa using hflush
        have hrest : rest = [] := by
          simp only [List.length_cons] at hle
          have hz : rest.length = 0 := by omega
          exact List.length_eq_zero.mp hz
        subst hrest
        rw [if_pos hflush]
        simp [processBatchGo]
      · have h1 : 0 < (acc ++ [op]).length + rest.length := by
          simp
        have h2 : (acc ++ [op]).length + rest.length ≤ t := by
          simp only [List.length_cons] at hle
          simp only [List.length_append, List.length_cons, List.length_nil]
          omega
        rw [if_neg hflush, ih (acc ++ [op]) h1 h2]
        simp

theorem processBatchGo_split (t : Nat) (l1 l2 : List (Option UpdateOp))
    (l1' : List UpdateOp) (acc : List UpdateOp)
    (hl1 : l1 = l1'.map some)
    (hlen : acc.length + l1'.length = t) (hpos : 0 < l1'.length) :
    processBatchGo t (l1 ++ l2) acc =
      ((acc ++ l1') :: (processBatchGo t l2 []).1,
        (processBatchGo t l2 []).2) := by
  subst hl1
  induction l1' generalizing acc with
  | nil => simp at hpos
  | cons op rest ih =>
      simp only [List.map_cons, List.cons_append, processBatchGo]
      by_cases hrest : rest = []
      · subst hrest
        have hflush : t ≤ (acc ++ [op]).length := by
          simp only [List.length_cons, List.length_nil] at hlen
          simp only [List.length_append, List.length_cons, List.length_nil]
          omega
        rw [if_pos hflush]
        simp
      · have hrlen : 0 < rest.length := List.length_pos.mpr hrest
        have hflush : ¬t ≤ (acc ++ [op]).length := by
          simp only [List.length_cons] at hlen
          simp only [List.length_append, List.length_cons, List.length_nil]
          omega
        have hlen2 : (acc ++ [op]).length + rest.length = t := by
          simp only [List.length_cons] at hlen
          simp only [List.length_append, List.length_cons, List.length_nil]
          omega
        rw [if_neg hflush]
        simp only [List.append_eq]
        rw [ih (acc ++ [op]) hlen2 hrlen]
        simp

/-- C5: with flush threshold B (`len(ops) >= 50` in update_member_claim.py
line 201, modelled as the parameter `t`), a batch of exactly B successful
eligibility records triggers exactly one flush of B upsert operations,
and B+1 records trigger exactly two flushes, one of size B and one of
size 1. -/
theorem flush_boundary (t : Nat) (ht : 0 < t) (res : List UpdateOp) :
    (res.length = t →
      ((processBatchGo t (res.map some) []).1).map List.length = [t]) ∧
    (res.length = t + 1 →
      ((processBatchGo t (res.map some) []).1).map List.length = [t, 1]) := by
  constructor
  · intro hlen
    rw [processBatchGo_small t res [] (by simp [hlen, ht]) (by simp [hlen])]
    simp [hlen]
  · intro hlen
    have htake : (res.take t).length = t := by
      rw [List.length_take, hlen]
      omega
    have hdrop : (res.drop t).length = 1 := by
      rw [List.length_drop, hlen]
      omega
    have hsplit : res.map some = (res.take t).map some ++
        ((res.drop t).map some) := by
      rw [← List.map_append, List.take_append_drop]
    rw [hsplit,
      processBatchGo_split t ((res.take t).map some) ((res.drop t).map some)
        (res.take t) [] rfl (by simp [htake]) (by rw [htake]; exact ht),
      processBatchGo_small t (res.drop t) [] (by simp [hdrop])
        (by simp [hdrop]; omega)]
    simp [htake, hdrop]

/-- Witness for C5 at threshold 2: two operations flush once as a group of
two; three operations flush twice, as a group of two and a group of one. -/
theorem flush_boundary_witness :
    ((processBatchGo 2 ([⟨Value.vnull, [], []⟩,
        ⟨Value.vnull, [], []⟩].map some) []).1).map List.length = [2] ∧
    ((processBatchGo 2 ([⟨Value.vnull, [], []⟩, ⟨Value.vnull, [], []⟩,
        ⟨Value.vnull, [], []⟩].map some) []).1).map List.length = [2, 1] :=
  ⟨(flush_boundary 2 (by decide) [⟨Value.vnull, [], []⟩,
      ⟨Value.vnull, [], []⟩]).1 (by decide),
    (flush_boundary 2 (by decide) [⟨Value.vnull, [], []⟩,
      ⟨Value.vnull, [], []⟩, ⟨Value.vnull, [], []⟩]).2 (by decide)⟩

theorem processBatchGo_skip_none (t : Nat)
    (pre post : List (Option UpdateOp)) (ops : List UpdateOp) :
    processBatchGo t (pre ++ none :: post) ops =
      ((processBatchGo t (pre ++ post) ops).1,
        (processBatchGo t (pre ++ post) ops).2 + 1) := by
  induction pre generalizing ops with
  | nil => simp [processBatchGo]
  | cons r pre' ih =>
      cases r with
      | none => simp [processBatchGo, ih]
      | some op =>
          simp only [List.cons_append, List.append_eq, processBatchGo]
          by_cases hflush : t ≤ ops.length + 1
          · simp [hflush, ih]
          · simp [hflush, ih]

theorem processBatchGo_join (t : Nat) (l : List (Option UpdateOp))
    (acc : List UpdateOp) :
    (processBatchGo t l acc).1.flatten = acc ++ l.filterMap id := by
  induction l generalizing acc with
  | nil => cases acc <;> simp [processBatchGo]
  | cons r rest ih =>
      cases r with
      | none => simp [processBatchGo, ih]
      | some op =>
          simp only [processBatchGo]
          by_cases hflush : t ≤ (acc ++ [op]).length
          · rw [if_pos hflush]
            simp [ih, List.filterMap_cons]
          · rw [if_neg hflush]
            simp [ih, List.filterMap_cons]

/-- C9: an exception inside one member's concurrent fetch task is caught
and logged (exactly one more logged error), that member is excluded from
the flush (the flushed operations are exactly the successful members'
operations), and the sibling tasks and the rest of the batch are
unaffected (the flush groups are identical to the run without the failing
task). -/
theorem per_member_error_isolated (t : Nat)
    (pre post : List (Option UpdateOp)) (ops : List UpdateOp) :
    (processBatchGo t (pre ++ none :: post) ops).1 =
      (processBatchGo t (pre ++ post) ops).1 ∧
    (processBatchGo t (pre ++ none :: post) ops).2 =
      (processBatchGo t (pre ++ post) ops).2 + 1 ∧
    (processBatchGo t (pre ++ none :: post) ops).1.flatten =
      ops ++ (pre ++ post).filterMap id := by
  refine ⟨?_, ?_, ?_⟩
  · rw [processBatchGo_skip_none]
  · rw [processBatchGo_skip_none]
  · rw [processBatchGo_join]
    congr 1
    simp [List.filterMap_append, List.filterMap_cons]

theorem setK_self (kvs : List (Key × Value)) (k : Key) (v : Value)
    (h : getK kvs k = some v) : setK kvs k v = kvs := by
  induction kvs with
  | nil => simp [getK] at h
  | cons p rest ih =>
      obtain ⟨k0, v0⟩ := p
      by_cases h0 : k0 = k
      · subst h0
        have hv : v0 = v := by simpa [getK] using h
        subst hv
        simp [setK]
      · simp only [getK, h0, if_false] at h
        simp [setK, h0, ih h]

theorem getK_applySet_not_mem (fields : Doc) (d : Doc) (k : Key)
    (h : k ∉ fields.map Prod.fst) : getK (applySet d fields) k = getK d k := by
  induction fields generalizing d with
  | nil => rfl
  | cons kv rest ih =>
      obtain ⟨k0, v0⟩ := kv
      simp only [List.map_cons, List.mem_cons, not_or] at h
      show getK (applySet (setK d k0 v0) rest) k = getK d k
      rw [ih (setK d k0 v0) h.2, getK_setK_other d k0 k v0 h.1]

theorem applySet_fields_getK (d : Doc) (e m ph u : Value) :
    getK (applySet d [(kEligibility, e), (kMedicalClaims, m),
        (kPharmacyClaims, ph), (kUpdatedAt, u)]) kEligibility = some e ∧
      getK (applySet d [(kEligibility, e), (kMedicalClaims, m),
        (kPharmacyClaims, ph), (kUpdatedAt, u)]) kMedicalClaims = some m ∧
      getK (applySet d [(kEligibility, e), (kMedicalClaims, m),
        (kPharmacyClaims, ph), (kUpdatedAt, u)]) kPharmacyClaims = some ph ∧
      getK (applySet d [(kEligibility, e), (kMedicalClaims, m),
        (kPharmacyClaims, ph), (kUpdatedAt, u)]) kUpdatedAt = some u := by
  have hX : applySet d [(kEligibility, e), (kMedicalClaims, m),
      (kPharmacyClaims, ph), (kUpdatedAt, u)] =
      setK (setK (setK (setK d kEligibility e) kMedicalClaims m)
        kPharmacyClaims ph) kUpdatedAt u := rfl
  rw [hX]
  refine ⟨?_, ?_, ?_, ?_⟩
  · rw [getK_setK_other _ _ _ _ (by decide),
      getK_setK_other _ _ _ _ (by decide),
      getK_setK_other _ _ _ _ (by decide), getK_setK_same]
  · rw [getK_setK_other _ _ _ _ (by decide),
      getK_setK_other _ _ _ _ (by decide), getK_setK_same]
  · rw [getK_setK_other _ _ _ _ (by decide), getK_setK_same]
  · rw [getK_setK_same]

theorem applySet_restamp (X : Doc) (e m ph u2 : Value)
    (he : getK X kEligibility = some e)
    (hm : getK X kMedicalClaims = some m)
    (hp : getK X kPharmacyClaims = some ph) :
    applySet X [(kEligibility, e), (kMedicalClaims, m),
      (kPharmacyClaims, ph), (kUpdatedAt, u2)] = setK X kUpdatedAt u2 := by
  show setK (setK (setK (setK X kEligibility e) kMedicalClaims m)
      kPharmacyClaims ph) kUpdatedAt u2 = setK X kUpdatedAt u2
  rw [setK_self X kEligibility e he, setK_self X kMedicalClaims m hm,
    setK_self X kPharmacyClaims ph hp]

theorem find?_replaceFirst (s : List Doc) (p : Doc → Bool) (f : Doc → Doc)
    (hf : ∀ d, p d = true → p (f d) = true) :
    (replaceFirst s p f).find? p = (s.find? p).map f := by
  induction s with
  | nil => rfl
  | cons d rest ih =>
      cases hp : p d with
      | true =>
          simp only [replaceFirst, hp, if_true]
          rw [List.find?_cons_of_pos _ (hf d hp),
            List.find?_cons_of_pos _ hp]
          rfl
      | false =>
          simp only [replaceFirst, hp, Bool.false_eq_true, if_false]
          rw [List.find?_cons_of_neg _ (by simp [hp]),
            List.find?_cons_of_neg _ (by simp [hp]), ih]

theorem fetchMemberClaims_shape (el : Doc) (medColl pharmColl : List Doc)
    (mbiMap : List (Key × Key)) (now : Int) (doc : Doc)
    (h : fetchMemberClaims el medColl pharmColl mbiMap now = some doc) :
    ∃ elU mc,
      undotD el [] = some elU ∧
        (medDocsFor medColl (medQueryId el mbiMap)).mapM
          (fun c => undotD c []) = some mc ∧
        doc = [(kMemberId, Value.vstr (memberIdOf el)),
               (kEligibility, Value.vdict elU),
               (kMedicalClaims, Value.vlist (mc.map Value.vdict)),
               (kPharmacyClaims, Value.vlist
                 ((pharmClaimsFor pharmColl (memberIdOf el)).map
                   Value.vdict)),
               (kUpdatedAt, Value.vint now),
               (kCreatedAt, Value.vint now)] := by
  cases hm : (medDocsFor medColl (medQueryId el mbiMap)).mapM
      (fun c => undotD c []) with
  | none =>
      simp only [fetchMemberClaims] at h
      rw [hm] at h
      exact absurd h (by simp)
  | some mc =>
      cases he : undotD el [] with
      | none =>
          simp only [fetchMemberClaims] at h
          rw [hm] at h
          dsimp only at h
          rw [he] at h
          exact absurd h (by simp)
      | some elU =>
          simp only [fetchMemberClaims] at h
          rw [hm] at h
          dsimp only at h
          rw [he] at h
          dsimp only at h
          injection h with h
          exact ⟨elU, mc, rfl, rfl, h.symm⟩

theorem applyUpdateOne_found (s : Store) (fv : Value) (sf soi : Doc)
    (h : s.any (fun d => decide (getK d kMemberId = some fv)) = true) :
    applyUpdateOne s ⟨fv, sf, soi⟩ =
      replaceFirst s (fun d => decide (getK d kMemberId = some fv))
        (fun d => applySet d sf) := by
  unfold applyUpdateOne
  dsimp only
  rw [if_pos h]

theorem applyUpdateOne_notfound (s : Store) (fv : Value) (sf soi : Doc)
    (h : s.any (fun d => decide (getK d kMemberId = some fv)) = false) :
    applyUpdateOne s ⟨fv, sf, soi⟩ =
      s ++ [applySet (applySet [(kMemberId, fv)] sf) soi] := by
  unfold applyUpdateOne
  dsimp only
  rw [if_neg (by rw [h]; exact Bool.false_ne_true)]

theorem upsert_pair (store : Store) (fv e m ph u1 u2 c1 c2 : Value) :
    ∃ d1,
      lookupStore (applyUpdateOne store
          ⟨fv, [(kEligibility, e), (kMedicalClaims, m),
            (kPharmacyClaims, ph), (kUpdatedAt, u1)],
            [(kCreatedAt, c1), (kMemberId, fv)]⟩) fv = some d1 ∧
        lookupStore (applyUpdateOne (applyUpdateOne store
            ⟨fv, [(kEligibility, e), (kMedicalClaims, m),
              (kPharmacyClaims, ph), (kUpdatedAt, u1)],
              [(kCreatedAt, c1), (kMemberId, fv)]⟩)
          ⟨fv, [(kEligibility, e), (kMedicalClaims, m),
            (kPharmacyClaims, ph), (kUpdatedAt, u2)],
            [(kCreatedAt, c2), (kMemberId, fv)]⟩) fv =
          some (setK d1 kUpdatedAt u2) ∧
        getK (setK d1 kUpdatedAt u2) kCreatedAt = getK d1 kCreatedAt ∧
        getK (setK d1 kUpdatedAt u2) kMemberId = getK d1 kMemberId ∧
        (lookupStore store fv = none →
          getK d1 kCreatedAt = some c1 ∧ getK d1 kMemberId = some fv) := by
  have hkeys1 : List.map Prod.fst [(kEligibility, e), (kMedicalClaims, m),
      (kPharmacyClaims, ph), (kUpdatedAt, u1)] =
      [kEligibility, kMedicalClaims, kPharmacyClaims, kUpdatedAt] := rfl
  have hkeys2 : List.map Prod.fst [(kEligibility, e), (kMedicalClaims, m),
      (kPharmacyClaims, ph), (kUpdatedAt, u2)] =
      [kEligibility, kMedicalClaims, kPharmacyClaims, kUpdatedAt] := rfl
  have hpres1 : ∀ d : Doc,
      (decide (getK d kMemberId = some fv)) = true →
      (decide (getK (applySet d [(kEligibility, e), (kMedicalClaims, m),
        (kPharmacyClaims, ph), (kUpdatedAt, u1)]) kMemberId = some fv))
        = true := by
    intro d hd
    rw [decide_eq_true_eq] at hd ⊢
    rw [getK_applySet_not_mem _ _ _ (by rw [hkeys1]; decide)]
    exact hd
  have hpres2 : ∀ d : Doc,
      (decide (getK d kMemberId = some fv)) = true →
      (decide (getK (applySet d [(kEligibility, e), (kMedicalClaims, m),
        (kPharmacyClaims, ph), (kUpdatedAt, u2)]) kMemberId = some fv))
        = true := by
    intro d hd
    rw [decide_eq_true_eq] at hd ⊢
    rw [getK_applySet_not_mem _ _ _ (by rw [hkeys2]; decide)]
    exact hd
  cases hany : store.any
      (fun d => decide (getK d kMemberId = some fv)) with
  | true =>
      have hfound : (store.find?
          (fun d => decide (getK d kMemberId = some fv))).isSome := by
        rw [List.find?_isSome]
        exact List.any_eq_true.mp hany
      obtain ⟨d0, hd0⟩ := Option.isSome_iff_exists.mp hfound
      have hfind1 : (replaceFirst store
          (fun d => decide (getK d kMemberId = some fv))
          (fun d => applySet d [(kEligibility, e), (kMedicalClaims, m),
            (kPharmacyClaims, ph), (kUpdatedAt, u1)])).find?
          (fun d => decide (getK d kMemberId = some fv)) =
          some (applySet d0 [(kEligibility, e), (kMedicalClaims, m),
            (kPharmacyClaims, ph), (kUpdatedAt, u1)]) := by
        rw [find?_replaceFirst _ _ _ hpres1, hd0]
        rfl
      have hl1 : lookupStore (applyUpdateOne store
          ⟨fv, [(kEligibility, e), (kMedicalClaims, m),
            (kPharmacyClaims, ph), (kUpdatedAt, u1)],
            [(kCreatedAt, c1), (kMemberId, fv)]⟩) fv =
          some (applySet d0 [(kEligibility, e), (kMedicalClaims, m),
            (kPharmacyClaims, ph), (kUpdatedAt, u1)]) := by
        rw [lookupStore, applyUpdateOne_found store fv _ _ hany]
        exact hfind1
      have hany2 : (applyUpdateOne store
          ⟨fv, [(kEligibility, e), (kMedicalClaims, m),
            (kPharmacyClaims, ph), (kUpdatedAt, u1)],
            [(kCreatedAt, c1), (kMemberId, fv)]⟩).any
          (fun d => decide (getK d kMemberId = some fv)) = true := by
        rw [applyUpdateOne_found store fv _ _ hany]
        apply List.any_eq_true.mpr
        refine ⟨applySet d0 [(kEligibility, e), (kMedicalClaims, m),
          (kPharmacyClaims, ph), (kUpdatedAt, u1)],
          List.mem_of_find?_eq_some hfind1, ?_⟩
        exact @List.find?_some _
          (fun d => decide (getK d kMemberId = some fv)) _ _ hfind1
      have hfg := applySet_fields_getK d0 e m ph u1
      refine ⟨applySet d0 [(kEligibility, e), (kMedicalClaims, m),
        (kPharmacyClaims, ph), (kUpdatedAt, u1)], hl1, ?_, ?_, ?_, ?_⟩
      · rw [lookupStore, applyUpdateOne_found _ fv _ _ hany2,
          find?_replaceFirst _ _ _ hpres2]
        have hl1' : (applyUpdateOne store
            ⟨fv, [(kEligibility, e), (kMedicalClaims, m),
              (kPharmacyClaims, ph), (kUpdatedAt, u1)],
              [(kCreatedAt, c1), (kMemberId, fv)]⟩).find?
            (fun d => decide (getK d kMemberId = some fv)) =
            some (applySet d0 [(kEligibility, e), (kMedicalClaims, m),
              (kPharmacyClaims, ph), (kUpdatedAt, u1)]) := hl1
        rw [hl1']
        simp only [Option.map_some']
        rw [applySet_restamp _ _ _ _ _ hfg.1 hfg.2.1 hfg.2.2.1]
      · rw [getK_setK_other _ _ _ _ (by decide)]
      · rw [getK_setK_other _ _ _ _ (by decide)]
      · intro hnone
        have hnone' : store.find?
            (fun d => decide (getK d kMemberId = some fv)) = none := hnone
        rw [hnone'] at hd0
        exact Option.noConfusion hd0
  | false =>
      have hnone : store.find?
          (fun d => decide (getK d kMemberId = some fv)) = none := by
        apply List.find?_eq_none.mpr
        intro x hx hc
        have hcc : store.any
            (fun d => decide (getK d kMemberId = some fv)) = true :=
          List.any_eq_true.mpr ⟨x, hx, hc⟩
        rw [hany] at hcc
        exact Bool.noConfusion hcc
      have hXq : applySet (applySet [(kMemberId, fv)]
          [(kEligibility, e), (kMedicalClaims, m), (kPharmacyClaims, ph),
            (kUpdatedAt, u1)]) [(kCreatedAt, c1), (kMemberId, fv)] =
          setK (setK (applySet [(kMemberId, fv)]
            [(kEligibility, e), (kMedicalClaims, m), (kPharmacyClaims, ph),
              (kUpdatedAt, u1)]) kCreatedAt c1) kMemberId fv := rfl
  
      have hfg := applySet_fields_getK [(kMemberId, fv)] e m ph u1
      have hNm : getK (applySet (applySet [(kMemberId, fv)]
          [(kEligibility, e), (kMedicalClaims, m), (kPharmacyClaims, ph),
            (kUpdatedAt, u1)]) [(kCreatedAt, c1), (kMemberId, fv)])
          kMemberId = some fv := by
        rw [hXq, getK_setK_same]
      have hNc : getK (applySet (applySet [(kMemberId, fv)]
          [(kEligibility, e), (kMedicalClaims, m), (kPharmacyClaims, ph),
            (kUpdatedAt, u1)]) [(kCreatedAt, c1), (kMemberId, fv)])
          kCreatedAt = some c1 := by
        rw [hXq, getK_setK_other _ _ _ _ (by decide), getK_setK_same]
      have hNe : getK (applySet (applySet [(kMemberId, fv)]
          [(kEligibility, e), (kMedicalClaims, m), (kPharmacyClaims, ph),
            (kUpdatedAt, u1)]) [(kCreatedAt, c1), (kMemberId, fv)])
          kEligibility = some e := by
        rw [hXq, getK_setK_other _ _ _ _ (by decide),
          getK_setK_other _ _ _ _ (by decide)]
        exact hfg.1
      have hNmed : getK (applySet (applySet [(kMemberId, fv)]
          [(kEligibility, e), (kMedicalClaims, m), (kPharmacyClaims, ph),
            (kUpdatedAt, u1)]) [(kCreatedAt, c1), (kMemberId, fv)])
          kMedicalClaims = some m := by
        rw [hXq, getK_setK_other _ _ _ _ (by decide),
          getK_setK_other _ _ _ _ (by decide)]
        exact hfg.2.1
      have hNph : getK (applySet (applySet [(kMemberId, fv)]
          [(kEligibility, e), (kMedicalClaims, m), (kPharmacyClaims, ph),
            (kUpdatedAt, u1)]) [(kCreatedAt, c1), (kMemberId, fv)])
          kPharmacyClaims = some ph := by
        rw [hXq, getK_setK_other _ _ _ _ (by decide),
          getK_setK_other _ _ _ _ (by decide)]
        exact hfg.2.2.1
      have hl1 : lookupStore (applyUpdateOne store
          ⟨fv, [(kEligibility, e), (kMedicalClaims, m),
            (kPharmacyClaims, ph), (kUpdatedAt, u1)],
            [(kCreatedAt, c1), (kMemberId, fv)]⟩) fv =
          some (applySet (applySet [(kMemberId, fv)]
            [(kEligibility, e), (kMedicalClaims, m), (kPharmacyClaims, ph),
              (kUpdatedAt, u1)]) [(kCreatedAt, c1), (kMemberId, fv)]) := by
        rw [lookupStore, applyUpdateOne_notfound store fv _ _ hany,
          List.find?_append, hnone]
        simp only [Option.none_or]
        rw [List.find?_cons_of_pos _ (by rw [decide_eq_true_eq]; exact hNm)]
      have hany2 : (applyUpdateOne store
          ⟨fv, [(kEligibility, e), (kMedicalClaims, m),
            (kPharmacyClaims, ph), (kUpdatedAt, u1)],
            [(kCreatedAt, c1), (kMemberId, fv)]⟩).any
          (fun d => decide (getK d kMemberId = some fv)) = true := by
        have hl1' : (applyUpdateOne store
            ⟨fv, [(kEligibility, e), (kMedicalClaims, m),
              (kPharmacyClaims, ph), (kUpdatedAt, u1)],
              [(kCreatedAt, c1), (kMemberId, fv)]⟩).find?
            (fun d => decide (getK d kMemberId = some fv)) =
            some (applySet (applySet [(kMemberId, fv)]
              [(kEligibility, e), (kMedicalClaims, m), (kPharmacyClaims, ph),
                (kUpdatedAt, u1)]) [(kCreatedAt, c1), (kMemberId, fv)]) := hl1
        apply List.any_eq_true.mpr
        refine ⟨_, List.mem_of_find?_eq_some hl1', ?_⟩
        exact @List.find?_some _
          (fun d => decide (getK d kMemberId = some fv)) _ _ hl1'
      refine ⟨applySet (applySet [(kMemberId, fv)]
        [(kEligibility, e), (kMedicalClaims, m), (kPharmacyClaims, ph),
          (kUpdatedAt, u1)]) [(kCreatedAt, c1), (kMemberId, fv)],
        hl1, ?_, ?_, ?_, ?_⟩
      · rw [lookupStore, applyUpdateOne_found _ fv _ _ hany2,
          find?_replaceFirst _ _ _ hpres2]
        have hl1' : (applyUpdateOne store
            ⟨fv, [(kEligibility, e), (kMedicalClaims, m),
              (kPharmacyClaims, ph), (kUpdatedAt, u1)],
              [(kCreatedAt, c1), (kMemberId, fv)]⟩).find?
            (fun d => decide (getK d kMemberId = some fv)) =
            some (applySet (applySet [(kMemberId, fv)]
              [(kEligibility, e), (kMedicalClaims, m), (kPharmacyClaims, ph),
                (kUpdatedAt, u1)]) [(kCreatedAt, c1), (kMemberId, fv)]) := hl1
        rw [hl1']
        simp only [Option.map_some']
        rw [applySet_restamp _ _ _ _ _ hNe hNmed hNph]
      · rw [getK_setK_other _ _ _ _ (by decide)]
      · rw [getK_setK_other _ _ _ _ (by decide)]
      · intro _
        exact ⟨hNc, hNm⟩

/-- C1: running the pipeline's upsert for a member twice against unchanged
sources yields an identical staging document except for `updatedAt`: the
upsert keyed by `memberId` `$set`s eligibility, medicalClaims,
pharmacyClaims and updatedAt on every run, while createdAt and memberId
are `$setOnInsert` only — set on first insert and never overwritten
afterwards. -/
theorem pipeline_idempotent (store : Store) (el : Doc)
    (medColl pharmColl : List Doc) (mbiMap : List (Key × Key))
    (t1 t2 : Int) (d1doc d2doc : Doc)
    (h1 : fetchMemberClaims el medColl pharmColl mbiMap t1 = some d1doc)
    (h2 : fetchMemberClaims el medColl pharmColl mbiMap t2 = some d2doc) :
    ∃ d1,
      lookupStore (applyUpdateOne store (mkOp d1doc))
        (Value.vstr (memberIdOf el)) = some d1 ∧
        lookupStore (applyUpdateOne (applyUpdateOne store (mkOp d1doc))
            (mkOp d2doc)) (Value.vstr (memberIdOf el)) =
          some (setK d1 kUpdatedAt (Value.vint t2)) ∧
        getK (setK d1 kUpdatedAt (Value.vint t2)) kCreatedAt =
          getK d1 kCreatedAt ∧
        getK (setK d1 kUpdatedAt (Value.vint t2)) kMemberId =
          getK d1 kMemberId ∧
        (lookupStore store (Value.vstr (memberIdOf el)) = none →
          getK d1 kCreatedAt = some (Value.vint t1) ∧
          getK d1 kMemberId = some (Value.vstr (memberIdOf el))) := by
  obtain ⟨elU, mc, he1, hm1, hd1⟩ :=
    fetchMemberClaims_shape el medColl pharmColl mbiMap t1 d1doc h1
  obtain ⟨elU2, mc2, he2, hm2, hd2⟩ :=
    fetchMemberClaims_shape el medColl pharmColl mbiMap t2 d2doc h2
  obtain rfl : elU = elU2 := Option.some.inj (he1.symm.trans he2)
  obtain rfl : mc = mc2 := Option.some.inj (hm1.symm.trans hm2)
  subst hd1
  subst hd2
  exact upsert_pair store (Value.vstr (memberIdOf el)) (Value.vdict elU)
    (Value.vlist (mc.map Value.vdict))
    (Value.vlist ((pharmClaimsFor pharmColl (memberIdOf el)).map
      Value.vdict))
    (Value.vint t1) (Value.vint t2) (Value.vint t1) (Value.vint t2)

/-- Witness for C1: the member `A` with empty claim sources, upserted into
an empty staging store at time 1 and again at time 2. -/
theorem pipeline_idempotent_witness :
    ∃ d1,
      lookupStore (applyUpdateOne [] (mkOp
          [(kMemberId, Value.vstr "A".toList),
           (kEligibility, Value.vdict [(kMemberId, Value.vstr "A".toList)]),
           (kMedicalClaims, Value.vlist []),
           (kPharmacyClaims, Value.vlist []),
           (kUpdatedAt, Value.vint 1), (kCreatedAt, Value.vint 1)]))
        (Value.vstr (memberIdOf [(kMemberId, Value.vstr "A".toList)])) =
        some d1 ∧
        lookupStore (applyUpdateOne (applyUpdateOne [] (mkOp
            [(kMemberId, Value.vstr "A".toList),
             (kEligibility, Value.vdict [(kMemberId,
               Value.vstr "A".toList)]),
             (kMedicalClaims, Value.vlist []),
             (kPharmacyClaims, Value.vlist []),
             (kUpdatedAt, Value.vint 1), (kCreatedAt, Value.vint 1)]))
            (mkOp [(kMemberId, Value.vstr "A".toList),
             (kEligibility, Value.vdict [(kMemberId,
               Value.vstr "A".toList)]),
             (kMedicalClaims, Value.vlist []),
             (kPharmacyClaims, Value.vlist []),
             (kUpdatedAt, Value.vint 2), (kCreatedAt, Value.vint 2)]))
          (Value.vstr (memberIdOf [(kMemberId, Value.vstr "A".toList)])) =
          some (setK d1 kUpdatedAt (Value.vint 2)) ∧
        getK (setK d1 kUpdatedAt (Value.vint 2)) kCreatedAt =
          getK d1 kCreatedAt ∧
        getK (setK d1 kUpdatedAt (Value.vint 2)) kMemberId =
          getK d1 kMemberId ∧
        (lookupStore [] (Value.vstr (memberIdOf
            [(kMemberId, Value.vstr "A".toList)])) = none →
          getK d1 kCreatedAt = some (Value.vint 1) ∧
          getK d1 kMemberId = some (Value.vstr (memberIdOf
            [(kMemberId, Value.vstr "A".toList)]))) :=
  pipeline_idempotent [] [(kMemberId, Value.vstr "A".toList)] [] [] [] 1 2
    [(kMemberId, Value.vstr "A".toList),
     (kEligibility, Value.vdict [(kMemberId, Value.vstr "A".toList)]),
     (kMedicalClaims, Value.vlist []),
     (kPharmacyClaims, Value.vlist []),
     (kUpdatedAt, Value.vint 1), (kCreatedAt, Value.vint 1)]
    [(kMemberId, Value.vstr "A".toList),
     (kEligibility, Value.vdict [(kMemberId, Value.vstr "A".toList)]),
     (kMedicalClaims, Value.vlist []),
     (kPharmacyClaims, Value.vlist []),
     (kUpdatedAt, Value.vint 2), (kCreatedAt, Value.vint 2)]
    (by decide) (by decide)

theorem bulkWriteUnordered_char (ops : List BulkOp) (store : Store) :
    bulkWriteUnordered store ops =
      (List.foldl applyUpdateOne store (validOps ops),
        invalidDetails ops) := by
  induction ops generalizing store with
  | nil => simp [bulkWriteUnordered, validOps, invalidDetails]
  | cons op rest ih =>
      cases op with
      | valid u =>
          simp only [bulkWriteUnordered, ih, validOps, invalidDetails,
            List.filterMap_cons, List.foldl_cons]
      | invalid detail =>
          simp only [bulkWriteUnordered, ih, validOps, invalidDetails,
            List.filterMap_cons]

/-- C8: each flush is one unordered bulk write: when a flush group
contains an invalid operation, every valid operation in the group still
persists — the resulting store is the same as for the group without the
invalid operation, namely the fold of all valid upserts — the failure is
logged as one entry carrying the per-operation details (including the
invalid operation's), and `execute_bulk` returns normally, so the run
continues. -/
theorem bulk_partial_failure_isolated (store : Store)
    (ops1 ops2 : List BulkOp) (detail : Key) :
    (executeBulk store (ops1 ++ BulkOp.invalid detail :: ops2)).1 =
      (executeBulk store (ops1 ++ ops2)).1 ∧
    (executeBulk store (ops1 ++ BulkOp.invalid detail :: ops2)).1 =
      List.foldl applyUpdateOne store (validOps (ops1 ++ ops2)) ∧
    (executeBulk store (ops1 ++ BulkOp.invalid detail :: ops2)).2 =
      [invalidDetails (ops1 ++ BulkOp.invalid detail :: ops2)] ∧
    detail ∈ invalidDetails (ops1 ++ BulkOp.invalid detail :: ops2) := by
  have hv : validOps (ops1 ++ BulkOp.invalid detail :: ops2) =
      validOps (ops1 ++ ops2) := by
    unfold validOps
    simp [List.filterMap_append, List.filterMap_cons]
  have hmem : detail ∈ invalidDetails (ops1 ++ BulkOp.invalid detail ::
      ops2) := by
    unfold invalidDetails
    rw [List.filterMap_append]
    apply List.mem_append_right
    simp [List.filterMap_cons]
  have hne : (invalidDetails (ops1 ++ BulkOp.invalid detail ::
      ops2)).isEmpty = false := by
    cases hh : invalidDetails (ops1 ++ BulkOp.invalid detail :: ops2) with
    | nil =>
        rw [hh] at hmem
        simp at hmem
    | cons a l => simp
  refine ⟨?_, ?_, ?_, hmem⟩
  · show (executeBulk store (ops1 ++ BulkOp.invalid detail :: ops2)).1 =
      (executeBulk store (ops1 ++ ops2)).1
    unfold executeBulk
    rw [bulkWriteUnordered_char, bulkWriteUnordered_char]
    simp [hv]
  · unfold executeBulk
    rw [bulkWriteUnordered_char]
    simp [hv]
  · unfold executeBulk
    rw [bulkWriteUnordered_char]
    simp [hne]

end SuspectEngine
